import Mathlib

/-!
Verification of the translation string lookup helpers
(`homeassistant/helpers/translation.py`).

The Python module is embedded shallowly:

* Python `dict`s are ordered association lists (`List (String × α)`) with
  Python's mutation semantics: `d[k] = v` overwrites in place when the key
  is present (keeping its position) and appends otherwise (`dset`);
  `d.update(e)` iterates `e` applying `dset` (`dupdate`); `d[k]` lookup
  finds the first (for genuine dicts: the only) binding (`getD?`).
* Parsed JSON documents are the inductive `JSON`; a translation tree is the
  field list of a top-level JSON object (`TransDict`).
* The external collaborators (module registry, generic JSON file loader,
  active-component set) are a record `Env` of abstract functions.
* The process-wide translation cache `hass.data[TRANSLATION_STRING_CACHE]`
  is threaded explicitly (`Caches`); filesystem paths are segment lists.
* Python exceptions (`AssertionError` used for registry misses and
  non-mapping files, `KeyError`, loader failures) become `Except Err`;
  partially performed mutations before a raise are kept, as in Python.
-/

inductive JSON where
  | str : String → JSON
  | num : Int → JSON
  | bool : Bool → JSON
  | null : JSON
  | arr : List JSON → JSON
  | obj : List (String × JSON) → JSON

/-- Fields of a parsed top-level JSON object (a translation tree). -/
abbrev TransDict := List (String × JSON)

/-- Python `d[k]` as a total lookup: first binding of `k`, if any. -/
def getD? : List (String × α) → String → Option α
  | [], _ => none
  | (k, v) :: rest, key => if k = key then some v else getD? rest key

/-- Python `d[k] = v`: overwrite in place when present, append otherwise. -/
def dset (d : List (String × α)) (k : String) (v : α) : List (String × α) :=
  if (getD? d k).isSome then d.map (fun p => if p.1 = k then (k, v) else p)
  else d ++ [(k, v)]

/-- Python `d.update(e)`: apply `d[k] = v` for each binding of `e` in order. -/
def dupdate (d e : List (String × α)) : List (String × α) :=
  e.foldl (fun acc p => dset acc p.1 p.2) d

/-- Python `'.' in s`. -/
def hasDot (s : String) : Bool := s.data.any (fun c => c = '.')

/-- Character-level split at the first `'.'` (before, after). -/
def splitDot1C : List Char → List Char × List Char
  | [] => ([], [])
  | c :: rest =>
      if c = '.' then ([], rest)
      else ((splitDot1C rest).1.cons c, (splitDot1C rest).2)

/-- Python `s.split('.', 1)` for a string containing a dot:
the part before and the part after the first `'.'`. -/
def splitDot1 (s : String) : String × String :=
  (⟨(splitDot1C s.data).1⟩, ⟨(splitDot1C s.data).2⟩)

/-- Errors of the pipeline, named as in the specification: registry miss
(`assert module is not None`), unreadable file, non-mapping file content
(`assert isinstance(loaded_json, dict)`), and `dict[key]` misses. -/
inductive Err where
  | notFound : Err
  | ioErr : Err
  | parseErr : Err
  | keyErr : Err
deriving DecidableEq

/-- Failures of the external generic JSON loader (`load_json`). -/
inductive LoadErr where
  | ioErr : LoadErr
  | parseErr : LoadErr
deriving DecidableEq

def LoadErr.toErr : LoadErr → Err
  | .ioErr => .ioErr
  | .parseErr => .parseErr

/-- Filesystem paths as segment lists (`pathlib.Path`): `.parent` is
`List.dropLast`, `.name` is the last segment, `/` is `List.append`. -/
abbrev FPath := List String

/-- Registry record for a component module: its file location,
`__name__` and `__package__`. -/
structure ComponentModule where
  file : FPath
  name : String
  package : String

/-- Registry record for a platform module: its file location. -/
structure PlatformModule where
  file : FPath

/-- External collaborators: the module/platform registry (`get_component`,
`get_platform`, `none` = unknown), the generic JSON file loader
(`load_json`), and the required identifier set
(`hass.config.components | set(config_entries.FLOWS)`) in its iteration
order. -/
structure Env where
  get_component : String → Option ComponentModule
  get_platform : String → String → Option PlatformModule
  load_json : FPath → Except LoadErr JSON
  components : List String

/-- Per-language cache entry: identifier to its loaded translation tree. -/
abbrev LangCache := List (String × TransDict)

/-- The process-wide cache `hass.data[TRANSLATION_STRING_CACHE]`:
language to per-language cache. -/
abbrev Caches := List (String × LangCache)

/-- Loop body of `recursive_flatten(prefix, data)`: `out` is the `output`
dict accumulated so far, the third argument the remaining items. A dict
value recurses with prefix `prefix + key + '.'` and merges via
`output.update(...)`; any other value is stored under `prefix + key`. -/
def recursive_flatten_from (pfx : String) :
    List (String × JSON) → List (String × JSON) → List (String × JSON)
  | out, [] => out
  | out, (key, JSON.obj sub) :: rest =>
      recursive_flatten_from pfx
        (dupdate out (recursive_flatten_from (pfx ++ key ++ ".") [] sub)) rest
  | out, (key, v) :: rest =>
      recursive_flatten_from pfx (dset out (pfx ++ key) v) rest

/-- Python `recursive_flatten(prefix, data)`. -/
def recursive_flatten (pfx : String) (data : List (String × JSON)) :
    List (String × JSON) :=
  recursive_flatten_from pfx [] data

/-- Python `flatten(data) = recursive_flatten('', data)`. -/
def flatten (data : List (String × JSON)) : List (String × JSON) :=
  recursive_flatten "" data

/-- Name of the directory containing a module file
(`pathlib.Path(module.__file__).parent.name`). -/
def parentName (file : FPath) : String := (file.dropLast).getLastD ""

/-- Python `component_translation_file(hass, component, language)`:
the translation json file location for a component or platform, or
`notFound` when the registry cannot resolve the identifier. -/
def component_translation_file (env : Env) (component language : String) :
    Except Err FPath :=
  let is_platform := hasDot component
  if is_platform = false then
    match env.get_component component with
    | none => .error .notFound
    | some module =>
        let module_path := module.file
        let filename :=
          if module.name = module.package then language ++ ".json"
          else component ++ "." ++ language ++ ".json"
        .ok (module_path.dropLast ++ [".translations", filename])
  else
    let parts := splitDot1 component
    match env.get_platform parts.1 parts.2 with
    | none => .error .notFound
    | some module =>
        let module_path := module.file
        let filename :=
          if parentName module_path = parts.1 then
            parts.2 ++ "." ++ language ++ ".json"
          else
            parts.1 ++ "." ++ language ++ ".json"
        .ok (module_path.dropLast ++ [".translations", filename])

/-- Python `load_translations_files(translation_files)`: load and parse
each file in order; a loader failure propagates, and content that is not a
mapping at top level (`assert isinstance(loaded_json, dict)`) raises
`parseErr`. Nothing is returned for any entry unless every entry loads. -/
def load_translations_files (load_json : FPath → Except LoadErr JSON) :
    List (String × FPath) → Except Err (List (String × TransDict))
  | [] => .ok []
  | (component, translation_file) :: rest =>
      match load_json translation_file with
      | .error e => .error e.toErr
      | .ok (JSON.obj fields) =>
          match load_translations_files load_json rest with
          | .error e => .error e
          | .ok loaded => .ok ((component, fields) :: loaded)
      | .ok _ => .error .parseErr

/-- Python `build_resources(translation_cache, components)`: group the
given identifiers by domain and shallow-merge (`dict.update`) their cached
trees into one tree per domain, in iteration order. `translation_cache[component]`
raises `keyErr` when the identifier is not cached. -/
def build_resources_from (translation_cache : LangCache)
    (resources : List (String × TransDict)) :
    List String → Except Err (List (String × TransDict))
  | [] => .ok resources
  | component :: rest =>
      let domain :=
        if hasDot component = false then component else (splitDot1 component).1
      let resources₁ :=
        if (getD? resources domain).isSome then resources
        else dset resources domain []
      match getD? translation_cache component with
      | none => .error .keyErr
      | some tree =>
          build_resources_from translation_cache
            (dset resources₁ domain (dupdate ((getD? resources₁ domain).getD []) tree))
            rest

/-- Python `build_resources` entry point (`resources = {}` then the loop). -/
def build_resources (translation_cache : LangCache) (components : List String) :
    Except Err (List (String × TransDict)) :=
  build_resources_from translation_cache [] components

/-- Missing-identifier computation
(`components - set(translation_cache)`), in required-set iteration order. -/
def missing_components (translation_cache : LangCache)
    (components : List String) : List String :=
  components.filter (fun c => (getD? translation_cache c).isNone)

/-- Path-resolution loop of the orchestrator
(`missing_files[component] = component_translation_file(...)`); the first
registry failure propagates. -/
def resolveFiles (env : Env) (missing : List String) (language : String) :
    Except Err (List (String × FPath)) :=
  match missing with
  | [] => .ok []
  | c :: rest =>
      match component_translation_file env c language with
      | .error e => .error e
      | .ok p =>
          match resolveFiles env rest language with
          | .error e => .error e
          | .ok r => .ok ((c, p) :: r)

/-- Cache initialisation lines of the orchestrator: ensure
`hass.data[TRANSLATION_STRING_CACHE][language]` exists (empty when new). -/
def ensureLang (st : Caches) (language : String) : Caches :=
  if (getD? st language).isSome then st else dset st language []

/-- Wrapping of the per-domain resources as a JSON object, the argument of
the final `flatten({'component': resources})`. -/
def objOfResources (resources : List (String × TransDict)) : JSON :=
  JSON.obj (resources.map (fun p => (p.1, JSON.obj p.2)))

/-- Python `async_get_component_resources(hass, language)`: ensure the
language's cache partition, compute the missing identifiers, resolve their
file paths, batch-load them (skipped when nothing is missing), insert the
loaded trees into the cache, build the per-domain resources over the full
required set and flatten under the top-level `'component'` namespace.
Returns the cache state as mutated so far together with the result;
exceptions propagate with the mutations already performed. -/
def async_get_component_resources (env : Env) (st : Caches)
    (language : String) : Caches × Except Err (List (String × JSON)) :=
  let st₀ := ensureLang st language
  let translation_cache := (getD? st₀ language).getD []
  let missing := missing_components translation_cache env.components
  match resolveFiles env missing language with
  | .error e => (st₀, .error e)
  | .ok missing_files =>
      if missing_files.isEmpty then
        match build_resources translation_cache env.components with
        | .error e => (st₀, .error e)
        | .ok resources =>
            (st₀, .ok (flatten [("component", objOfResources resources)]))
      else
        match load_translations_files env.load_json missing_files with
        | .error e => (st₀, .error e)
        | .ok loaded =>
            let cache₁ := dupdate translation_cache loaded
            let st₁ := dset st₀ language cache₁
            match build_resources cache₁ env.components with
            | .error e => (st₁, .error e)
            | .ok resources =>
                (st₁, .ok (flatten [("component", objOfResources resources)]))

/-- Python `async_get_translations(hass, language)`: the requested
language's resources; for a language other than `'en'` also the `'en'`
resources, merged underneath via `{**base_resources, **resources}`. -/
def async_get_translations (env : Env) (st : Caches) (language : String) :
    Caches × Except Err (List (String × JSON)) :=
  match async_get_component_resources env st language with
  | (st₁, .error e) => (st₁, .error e)
  | (st₁, .ok resources) =>
      if language ≠ "en" then
        match async_get_component_resources env st₁ "en" with
        | (st₂, .error e) => (st₂, .error e)
        | (st₂, .ok base_resources) =>
            (st₂, .ok (dupdate base_resources resources))
      else (st₁, .ok resources)

/-- Keys of an association list, in order. -/
def keysOf (d : List (String × α)) : List String := d.map Prod.fst

/-- Leaves of a translation tree with their key paths, in depth-first
order: a non-mapping value at nesting path `p` contributes `(p, value)`. -/
def leavesList : List (String × JSON) → List (List String × JSON)
  | [] => []
  | (k, JSON.obj sub) :: rest =>
      (leavesList sub).map (fun pv => (k :: pv.1, pv.2)) ++ leavesList rest
  | (k, v) :: rest => ([k], v) :: leavesList rest

/-- Dict well-formedness: keys are pairwise distinct at every level. -/
def nodupKeysT : List (String × JSON) → Bool
  | [] => true
  | (k, JSON.obj sub) :: rest =>
      !decide (k ∈ keysOf rest) && nodupKeysT sub && nodupKeysT rest
  | (k, _) :: rest => !decide (k ∈ keysOf rest) && nodupKeysT rest

/-- No key of the tree, at any level, contains a `'.'`. -/
def dotFreeT : List (String × JSON) → Bool
  | [] => true
  | (k, JSON.obj sub) :: rest => !hasDot k && dotFreeT sub && dotFreeT rest
  | (k, _) :: rest => !hasDot k && dotFreeT rest

/-- No value of the tree, at any level, is an empty mapping. -/
def noEmptyT : List (String × JSON) → Bool
  | [] => true
  | (_, JSON.obj sub) :: rest => !sub.isEmpty && noEmptyT sub && noEmptyT rest
  | (_, _) :: rest => noEmptyT rest

/-- Parent keys joined with `'.'` (a leaf's dotted path). -/
def joinDots : List String → String
  | [] => ""
  | [k] => k
  | k :: rest => k ++ "." ++ joinDots rest

/-- Character-level split on every `'.'`. -/
def splitDotsC : List Char → List (List Char)
  | [] => [[]]
  | c :: rest =>
      if c = '.' then [] :: splitDotsC rest
      else
        match splitDotsC rest with
        | [] => [[c]]
        | p :: ps => (c :: p) :: ps

/-- Splitting a dotted key on `'.'` (Python `key.split('.')`). -/
def splitDots (s : String) : List String := (splitDotsC s.data).map (fun l => ⟨l⟩)

/-- Insertion of one value into a tree under a key path, rebuilding the
nested mappings along the path (descending into an existing sub-mapping,
starting a fresh one otherwise). -/
def insertPath : List (String × JSON) → List String → JSON → List (String × JSON)
  | t, [], _ => t
  | t, [k], v => dset t k v
  | t, k :: ks, v =>
      let sub :=
        match getD? t k with
        | some (JSON.obj s) => s
        | _ => []
      dset t k (JSON.obj (insertPath sub ks v))

/-- Re-nesting of a flat map, per the specification: split each key on
`'.'` and rebuild the tree, entry by entry. -/
def unflatten (flat : List (String × JSON)) : List (String × JSON) :=
  flat.foldl (fun t p => insertPath t (splitDots p.1) p.2) []

/-- Path-level tree rebuilding (the same fold on already split paths). -/
def rebuildFrom (t : List (String × JSON))
    (entries : List (List String × JSON)) : List (String × JSON) :=
  entries.foldl (fun t e => insertPath t e.1 e.2) t

/-- Domain of an identifier: the part before the first separator, or the
whole identifier when there is none. -/
def domainOf (c : String) : String :=
  if hasDot c = false then c else (splitDot1 c).1

/-- Last-write-wins reference semantics: the value for top-level key `k`
of domain `d` contributed by the identifiers in order, later identifiers
(of that domain) overriding earlier ones. -/
def lastWinsFrom (translation_cache : LangCache) (d k : String) :
    Option JSON → List String → Option JSON
  | acc, [] => acc
  | acc, c :: rest =>
      lastWinsFrom translation_cache d k
        (if domainOf c = d then
          match getD? translation_cache c with
          | some tree =>
              match getD? tree k with
              | some v => some v
              | none => acc
          | none => acc
        else acc) rest

/-- Last-write-wins value of top-level key `k` in domain `d` over the
given identifier list. -/
def lastWins (translation_cache : LangCache) (components : List String)
    (d k : String) : Option JSON :=
  lastWinsFrom translation_cache d k none components

/-- Specification §4.1 Path Resolver, stated from the spec's own words as
the comparison definition for the refinement claim: a component identifier
(no separator) of a package-style module (its name equals the owning
package name) maps to `<language>.json`, a single-file component to
`<component>.<language>.json`; a platform identifier `domain.platform`
maps to `<platform>.<language>.json` when the containing directory's name
equals the domain (layout A) and to `<domain>.<language>.json` otherwise
(layout B); always inside the directory's `.translations` subdirectory;
`notFound` when the registry cannot map the identifier. -/
def resolve_spec (env : Env) (identifier language : String) :
    Except Err FPath :=
  if hasDot identifier then
    let domain := (splitDot1 identifier).1
    let platform := (splitDot1 identifier).2
    match env.get_platform domain platform with
    | none => .error .notFound
    | some m =>
        let dir := m.file.dropLast
        let filename :=
          if dir.getLastD "" = domain then
            platform ++ "." ++ language ++ ".json"
          else domain ++ "." ++ language ++ ".json"
        .ok (dir ++ [".translations", filename])
  else
    match env.get_component identifier with
    | none => .error .notFound
    | some m =>
        let dir := m.file.dropLast
        let filename :=
          if m.name = m.package then language ++ ".json"
          else identifier ++ "." ++ language ++ ".json"
        .ok (dir ++ [".translations", filename])

/-- Failure of the external loader on a file: unreadable, or readable but
not a mapping at top level. -/
def fileLoadFails (load_json : FPath → Except LoadErr JSON) (f : FPath) : Prop :=
  (∃ e, load_json f = .error e) ∨
    ∃ j, load_json f = .ok j ∧ ∀ fields, j ≠ JSON.obj fields

/-- Tree cached for an identifier in a language partition (`none` when the
partition or the identifier is absent). -/
def cacheLookup (st : Caches) (language component : String) : Option TransDict :=
  getD? ((getD? st language).getD []) component

/-- The registry cannot map the identifier to a loaded unit. -/
def registryMissing (env : Env) (c : String) : Prop :=
  if hasDot c then
    env.get_platform (splitDot1 c).1 (splitDot1 c).2 = none
  else env.get_component c = none

/-- Keys are pairwise distinct (the representation invariant of a dict). -/
def nodupKeys (d : List (String × α)) : Prop := (keysOf d).Nodup

/-- Structural induction over translation trees through the nested
`List (String × JSON)` representation. -/
def treeListInduct (P : List (String × JSON) → Prop)
    (h1 : P [])
    (h2 : ∀ k sub rest, P sub → P rest → P ((k, JSON.obj sub) :: rest))
    (h3 : ∀ k v rest, (∀ sub, v ≠ JSON.obj sub) → P rest → P ((k, v) :: rest)) :
    ∀ data, P data
  | [] => h1
  | (k, JSON.obj sub) :: rest =>
      h2 k sub rest (treeListInduct P h1 h2 h3 sub) (treeListInduct P h1 h2 h3 rest)
  | (k, JSON.str s) :: rest =>
      h3 k (JSON.str s) rest (fun _ h => JSON.noConfusion h)
        (treeListInduct P h1 h2 h3 rest)
  | (k, JSON.num n) :: rest =>
      h3 k (JSON.num n) rest (fun _ h => JSON.noConfusion h)
        (treeListInduct P h1 h2 h3 rest)
  | (k, JSON.bool b) :: rest =>
      h3 k (JSON.bool b) rest (fun _ h => JSON.noConfusion h)
        (treeListInduct P h1 h2 h3 rest)
  | (k, JSON.null) :: rest =>
      h3 k JSON.null rest (fun _ h => JSON.noConfusion h)
        (treeListInduct P h1 h2 h3 rest)
  | (k, JSON.arr l) :: rest =>
      h3 k (JSON.arr l) rest (fun _ h => JSON.noConfusion h)
        (treeListInduct P h1 h2 h3 rest)

/-- Flat entries a subtree contributes under a given prefix: one entry per
leaf, keyed by the prefix followed by the leaf's dotted path. -/
def entriesOf (pfx : String) (data : List (String × JSON)) :
    List (String × JSON) :=
  (leavesList data).map (fun pv => (pfx ++ joinDots pv.1, pv.2))

/-- Sub-mapping stored under a key, as `insertPath` reads it: the fields of
an existing object value, or empty. -/
def subAt (t : List (String × JSON)) (k : String) : List (String × JSON) :=
  match getD? t k with
  | some (JSON.obj s) => s
  | _ => []

def lightModule : ComponentModule := ⟨["light", "__init__.py"], "light", "light"⟩

def hueModule : PlatformModule := ⟨["hue", "light.py"]⟩

/-- Well-behaved example world: a package-style component `light`, a
layout-B platform `light.hue`, translation files for `en` and `nl`. -/
def envW : Env :=
  { get_component := fun c => if c = "light" then some lightModule else none
    get_platform := fun d p =>
      if d = "light" ∧ p = "hue" then some hueModule else none
    load_json := fun f =>
      if f = ["light", ".translations", "en.json"] then
        .ok (JSON.obj [("state", JSON.obj [("on", JSON.str "On")])])
      else if f = ["hue", ".translations", "light.en.json"] then
        .ok (JSON.obj [("state", JSON.obj [("on", JSON.str "On (Hue)")])])
      else if f = ["light", ".translations", "nl.json"] then
        .ok (JSON.obj [("bar", JSON.str "Bar")])
      else if f = ["hue", ".translations", "light.nl.json"] then
        .ok (JSON.obj [("foo", JSON.str "Foo")])
      else .error .ioErr
    components := ["light", "light.hue"] }

def stNlW : Caches :=
  [("nl", [("light", [("bar", JSON.str "Bar")]),
    ("light.hue", [("foo", JSON.str "Foo")])])]

def cacheEnW : LangCache :=
  [("light", [("state", JSON.obj [("on", JSON.str "On")])]),
   ("light.hue", [("state", JSON.obj [("on", JSON.str "On (Hue)")])])]

def stNlEnW : Caches :=
  [("nl", [("light", [("bar", JSON.str "Bar")]),
    ("light.hue", [("foo", JSON.str "Foo")])]),
   ("en", cacheEnW)]

def rNlW : List (String × JSON) :=
  [("component.light.bar", JSON.str "Bar"),
   ("component.light.foo", JSON.str "Foo")]

def bEnW : List (String × JSON) :=
  [("component.light.state.on", JSON.str "On (Hue)")]

def cacheC2W : LangCache :=
  [("light", [("state", JSON.obj [("on", JSON.str "On"),
      ("off", JSON.str "Off")])]),
   ("light.hue", [("state", JSON.obj [("on", JSON.str "On (Hue)")])])]

def outC2W : List (String × TransDict) :=
  [("light", [("state", JSON.obj [("on", JSON.str "On (Hue)")])])]

def envBad : Env :=
  { get_component := fun c => if c = "light" then some lightModule else none
    get_platform := fun _ _ => none
    load_json := fun _ => .ok (JSON.str "nope")
    components := ["light"] }

def treeEmptyW : List (String × JSON) := [("a", JSON.obj [])]

def treeW : List (String × JSON) :=
  [("state", JSON.obj [("on", JSON.str "On"), ("off", JSON.str "Off")]),
   ("name", JSON.str "Light")]

def envMissing : Env :=
  { get_component := fun _ => none
    get_platform := fun _ _ => none
    load_json := fun _ => .error .ioErr
    components := ["ghost"] }

def treeShadowW : List (String × JSON) :=
  [("a.b", JSON.num 1), ("a", JSON.obj [("b", JSON.str "s")])]

def treeMixedW : List (String × JSON) :=
  [("n", JSON.num 3),
   ("deep", JSON.obj [("flag", JSON.bool true),
     ("items", JSON.arr [JSON.null])])]

theorem keysOf_cons (p : String × α) (rest : List (String × α)) :
    keysOf (p :: rest) = p.1 :: keysOf rest := rfl

theorem keysOf_append (d e : List (String × α)) :
    keysOf (d ++ e) = keysOf d ++ keysOf e := by
  simp [keysOf]

theorem mem_keysOf {d : List (String × α)} {k : String} :
    k ∈ keysOf d ↔ ∃ v, (k, v) ∈ d := by
  constructor
  · intro h
    rcases List.mem_map.mp h with ⟨⟨a, b⟩, hm, hk⟩
    cases hk
    exact ⟨b, hm⟩
  · rintro ⟨v, hv⟩
    exact List.mem_map.mpr ⟨(k, v), hv, rfl⟩

theorem fst_mem_keysOf {p : String × α} {d : List (String × α)} (hp : p ∈ d) :
    p.1 ∈ keysOf d :=
  List.mem_map_of_mem Prod.fst hp

theorem nodupKeys_cons {p : String × α} {rest : List (String × α)} :
    nodupKeys (p :: rest) ↔ p.1 ∉ keysOf rest ∧ nodupKeys rest := by
  simp [nodupKeys, keysOf_cons, List.nodup_cons]

theorem getD?_cons (x : String) (y : α) (t : List (String × α)) (key : String) :
    getD? ((x, y) :: t) key = if x = key then some y else getD? t key := rfl

theorem getD?_eq_none {d : List (String × α)} {k : String} :
    getD? d k = none ↔ k ∉ keysOf d := by
  induction d with
  | nil => simp [getD?, keysOf]
  | cons p rest ih =>
      obtain ⟨a, b⟩ := p
      rw [keysOf_cons]
      by_cases h : a = k
      · subst h
        simp [getD?_cons]
      · have h' : ¬(k = a) := fun hh => h hh.symm
        simp [getD?_cons, h, h', ih]

theorem getD?_isSome {d : List (String × α)} {k : String} :
    (getD? d k).isSome ↔ k ∈ keysOf d := by
  rw [Option.isSome_iff_ne_none]
  constructor
  · intro h
    by_contra hk
    exact h (getD?_eq_none.mpr hk)
  · intro h he
    exact getD?_eq_none.mp he h

theorem getD?_append (d e : List (String × α)) (k : String) :
    getD? (d ++ e) k
      = match getD? d k with
        | some v => some v
        | none => getD? e k := by
  induction d with
  | nil => simp [getD?]
  | cons p rest ih =>
      obtain ⟨a, b⟩ := p
      by_cases h : a = k <;> simp [getD?_cons, h, ih]

theorem getD?_map_dset (d : List (String × α)) (k k' : String) (v : α) :
    getD? (d.map (fun p => if p.1 = k then (k, v) else p)) k'
      = if k' = k then (getD? d k).map (fun _ => v) else getD? d k' := by
  induction d with
  | nil => by_cases h : k' = k <;> simp [getD?, h]
  | cons p rest ih =>
      obtain ⟨a, b⟩ := p
      dsimp only [List.map_cons]
      by_cases hak : a = k
      · subst hak
        rw [if_pos rfl]
        by_cases hk : k' = a
        · subst hk
          rw [if_pos rfl, getD?_cons, if_pos rfl, getD?_cons, if_pos rfl]
          rfl
        · have hk' : ¬(a = k') := fun hh => hk hh.symm
          rw [if_neg hk, getD?_cons, if_neg hk', ih, if_neg hk, getD?_cons, if_neg hk']
      · rw [if_neg hak]
        by_cases hk : a = k'
        · subst hk
          have hk2 : ¬(a = k) := hak
          rw [getD?_cons, if_pos rfl, if_neg hak, getD?_cons, if_pos rfl]
        · rw [getD?_cons, if_neg hk, ih]
          by_cases hk2 : k' = k
          · rw [if_pos hk2, if_pos hk2, getD?_cons, if_neg hak]
          · rw [if_neg hk2, if_neg hk2, getD?_cons, if_neg hk]

theorem getD?_dset_self (d : List (String × α)) (k : String) (v : α) :
    getD? (dset d k v) k = some v := by
  unfold dset
  by_cases h : (getD? d k).isSome
  · rcases Option.isSome_iff_exists.mp h with ⟨w, hw⟩
    simp [h, getD?_map_dset, hw]
  · simp [h, getD?_append, Option.not_isSome_iff_eq_none.mp h, getD?]

theorem getD?_dset_ne (d : List (String × α)) {k k' : String} (v : α)
    (h : k' ≠ k) : getD? (dset d k v) k' = getD? d k' := by
  unfold dset
  by_cases hs : (getD? d k).isSome
  · rw [if_pos hs, getD?_map_dset, if_neg h]
  · rw [if_neg hs, getD?_append]
    have h1 : getD? [(k, v)] k' = none := by
      rw [getD?_cons, if_neg (Ne.symm h)]
      rfl
    cases hd : getD? d k' with
    | none => simpa using h1
    | some w => rfl

theorem dset_fresh (d : List (String × α)) {k : String} (v : α)
    (h : getD? d k = none) : dset d k v = d ++ [(k, v)] := by
  unfold dset
  simp [h]

theorem keysOf_dset_of_mem (d : List (String × α)) {k : String} (v : α)
    (h : k ∈ keysOf d) : keysOf (dset d k v) = keysOf d := by
  unfold dset
  rw [if_pos (getD?_isSome.mpr h)]
  simp only [keysOf, List.map_map]
  apply List.map_congr_left
  intro p _
  by_cases hp : p.1 = k <;> simp [hp]

theorem keysOf_dset_of_not_mem (d : List (String × α)) {k : String} (v : α)
    (h : ¬k ∈ keysOf d) : keysOf (dset d k v) = keysOf d ++ [k] := by
  rw [dset_fresh d v (getD?_eq_none.mpr h), keysOf_append]
  rfl

theorem nodupKeys_dset (d : List (String × α)) (k : String) (v : α)
    (h : nodupKeys d) : nodupKeys (dset d k v) := by
  by_cases hk : k ∈ keysOf d
  · unfold nodupKeys
    rw [keysOf_dset_of_mem d v hk]
    exact h
  · unfold nodupKeys
    rw [keysOf_dset_of_not_mem d v hk]
    simpa [List.nodup_append] using ⟨h, hk⟩

theorem nodupKeys_dupdate (d e : List (String × α)) (h : nodupKeys d) :
    nodupKeys (dupdate d e) := by
  induction e generalizing d with
  | nil => exact h
  | cons p rest ih =>
      exact ih (dset d p.1 p.2) (nodupKeys_dset d p.1 p.2 h)

theorem dupdate_nil (d : List (String × α)) : dupdate d [] = d := rfl

theorem getD?_dupdate (d e : List (String × α)) (k : String)
    (he : nodupKeys e) :
    getD? (dupdate d e) k
      = match getD? e k with
        | some v => some v
        | none => getD? d k := by
  induction e generalizing d with
  | nil => simp [dupdate, getD?]
  | cons p rest ih =>
      obtain ⟨a, b⟩ := p
      have hrest : nodupKeys rest := (nodupKeys_cons.mp he).2
      have hstep : dupdate d ((a, b) :: rest) = dupdate (dset d a b) rest := rfl
      by_cases h : a = k
      · subst h
        have hna : getD? rest a = none :=
          getD?_eq_none.mpr (nodupKeys_cons.mp he).1
        rw [hstep, ih (dset d a b) hrest, hna]
        simp [getD?_cons, getD?_dset_self]
      · have hka : k ≠ a := fun hh => h hh.symm
        rw [hstep, ih (dset d a b) hrest, getD?_cons, if_neg h]
        cases hr : getD? rest k with
        | some w => rfl
        | none => simp [getD?_dset_ne d b hka]

theorem isSome_getD?_dupdate (d e : List (String × α)) (k : String) :
    (getD? (dupdate d e) k).isSome
      ↔ (getD? d k).isSome ∨ (getD? e k).isSome := by
  induction e generalizing d with
  | nil => simp [dupdate, getD?]
  | cons p rest ih =>
      obtain ⟨a, b⟩ := p
      have hstep : dupdate d ((a, b) :: rest) = dupdate (dset d a b) rest := rfl
      rw [hstep, ih (dset d a b)]
      by_cases h : a = k
      · subst h
        simp [getD?_cons, getD?_dset_self]
      · have hka : k ≠ a := fun hh => h hh.symm
        simp [getD?_cons, h, getD?_dset_ne d b hka]

theorem dupdate_fresh (d e : List (String × α)) (he : nodupKeys e)
    (hdisj : ∀ s ∈ keysOf e, getD? d s = none) : dupdate d e = d ++ e := by
  induction e generalizing d with
  | nil => simp [dupdate]
  | cons p rest ih =>
      obtain ⟨a, b⟩ := p
      have hrest : nodupKeys rest := (nodupKeys_cons.mp he).2
      have hanot : a ∉ keysOf rest := (nodupKeys_cons.mp he).1
      have hstep : dupdate d ((a, b) :: rest) = dupdate (dset d a b) rest := rfl
      have ha : getD? d a = none := hdisj a (by rw [keysOf_cons]; exact List.mem_cons_self a _)
      have hf : ∀ s ∈ keysOf rest, getD? (d ++ [(a, b)]) s = none := by
        intro s hs
        rw [getD?_append]
        have hsd : getD? d s = none :=
          hdisj s (by rw [keysOf_cons]; exact List.mem_cons_of_mem _ hs)
        have hsa : a ≠ s := fun hh => hanot (hh ▸ hs)
        rw [hsd, getD?_cons, if_neg hsa]
        rfl
      rw [hstep, dset_fresh d b ha, ih (d ++ [(a, b)]) hrest hf]
      simp

theorem getD?_mem_nodup {d : List (String × α)} {k : String} {v : α}
    (hm : (k, v) ∈ d) (hd : nodupKeys d) : getD? d k = some v := by
  induction d with
  | nil => cases hm
  | cons p rest ih =>
      obtain ⟨a, b⟩ := p
      rcases List.mem_cons.mp hm with h | h
      · cases h
        rw [getD?_cons, if_pos rfl]
      · have ha : a ≠ k := by
          intro hh
          subst hh
          exact (nodupKeys_cons.mp hd).1 (mem_keysOf.mpr ⟨v, h⟩)
        rw [getD?_cons, if_neg ha]
        exact ih h (nodupKeys_cons.mp hd).2

theorem dset_dset (t : List (String × α)) (k : String) (a b : α) :
    dset (dset t k a) k b = dset t k b := by
  by_cases h : (getD? t k).isSome
  · rcases Option.isSome_iff_exists.mp h with ⟨w, hw⟩
    have h2 : (getD? (t.map (fun p => if p.1 = k then (k, a) else p)) k).isSome := by
      rw [getD?_map_dset, if_pos rfl, hw]
      rfl
    unfold dset
    rw [if_pos h, if_pos h2, if_pos h, List.map_map]
    apply List.map_congr_left
    intro p _
    by_cases hp : p.1 = k <;> simp [hp]
  · have hn := Option.not_isSome_iff_eq_none.mp h
    have h2 : getD? (t ++ [(k, a)]) k = some a := by
      rw [getD?_append, hn, getD?_cons, if_pos rfl]
    have hmap : t.map (fun p => if p.1 = k then (k, b) else p) = t := by
      have hid : ∀ p ∈ t, (if p.1 = k then ((k, b) : String × α) else p) = p := by
        intro p hp
        have hne : p.1 ≠ k := by
          intro hh
          exact (getD?_eq_none.mp hn) (hh ▸ fst_mem_keysOf hp)
        rw [if_neg hne]
      rw [List.map_congr_left hid]
      exact List.map_id' t
    rw [dset_fresh t a hn]
    unfold dset
    rw [if_pos (by rw [h2]; rfl), if_neg h, List.map_append, hmap]
    simp

theorem leavesList_obj (k : String) (sub rest : List (String × JSON)) :
    leavesList ((k, JSON.obj sub) :: rest)
      = (leavesList sub).map (fun pv => (k :: pv.1, pv.2)) ++ leavesList rest := by
  simp [leavesList]

theorem leavesList_leaf (k : String) {v : JSON} (rest : List (String × JSON))
    (hv : ∀ sub, v ≠ JSON.obj sub) :
    leavesList ((k, v) :: rest) = ([k], v) :: leavesList rest := by
  cases v with
  | obj sub => exact absurd rfl (hv sub)
  | str s => simp [leavesList]
  | num n => simp [leavesList]
  | bool b => simp [leavesList]
  | null => simp [leavesList]
  | arr l => simp [leavesList]

theorem nodupKeysT_obj {k : String} {sub rest : List (String × JSON)} :
    nodupKeysT ((k, JSON.obj sub) :: rest) = true
      ↔ k ∉ keysOf rest ∧ nodupKeysT sub = true ∧ nodupKeysT rest = true := by
  simp [nodupKeysT, and_assoc]

theorem nodupKeysT_leaf {k : String} {v : JSON} {rest : List (String × JSON)}
    (hv : ∀ sub, v ≠ JSON.obj sub) :
    nodupKeysT ((k, v) :: rest) = true
      ↔ k ∉ keysOf rest ∧ nodupKeysT rest = true := by
  cases v with
  | obj sub => exact absurd rfl (hv sub)
  | str s => simp [nodupKeysT]
  | num n => simp [nodupKeysT]
  | bool b => simp [nodupKeysT]
  | null => simp [nodupKeysT]
  | arr l => simp [nodupKeysT]

theorem dotFreeT_obj {k : String} {sub rest : List (String × JSON)} :
    dotFreeT ((k, JSON.obj sub) :: rest) = true
      ↔ hasDot k = false ∧ dotFreeT sub = true ∧ dotFreeT rest = true := by
  simp [dotFreeT, and_assoc]

theorem dotFreeT_leaf {k : String} {v : JSON} {rest : List (String × JSON)}
    (hv : ∀ sub, v ≠ JSON.obj sub) :
    dotFreeT ((k, v) :: rest) = true
      ↔ hasDot k = false ∧ dotFreeT rest = true := by
  cases v with
  | obj sub => exact absurd rfl (hv sub)
  | str s => simp [dotFreeT]
  | num n => simp [dotFreeT]
  | bool b => simp [dotFreeT]
  | null => simp [dotFreeT]
  | arr l => simp [dotFreeT]

theorem noEmptyT_obj {k : String} {sub rest : List (String × JSON)} :
    noEmptyT ((k, JSON.obj sub) :: rest) = true
      ↔ sub ≠ [] ∧ noEmptyT sub = true ∧ noEmptyT rest = true := by
  simp [noEmptyT, List.isEmpty_iff, and_assoc]

theorem noEmptyT_leaf {k : String} {v : JSON} {rest : List (String × JSON)}
    (hv : ∀ sub, v ≠ JSON.obj sub) :
    noEmptyT ((k, v) :: rest) = true ↔ noEmptyT rest = true := by
  cases v with
  | obj sub => exact absurd rfl (hv sub)
  | str s => simp [noEmptyT]
  | num n => simp [noEmptyT]
  | bool b => simp [noEmptyT]
  | null => simp [noEmptyT]
  | arr l => simp [noEmptyT]

theorem leaves_head :
    ∀ data : List (String × JSON), ∀ p v, (p, v) ∈ leavesList data →
      ∃ h t, p = h :: t ∧ h ∈ keysOf data := by
  apply treeListInduct
    (fun data => ∀ p v, (p, v) ∈ leavesList data →
      ∃ h t, p = h :: t ∧ h ∈ keysOf data)
  · intro p v hm
    simp [leavesList] at hm
  · intro k sub rest ihs ihr p v hm
    rw [leavesList_obj] at hm
    rcases List.mem_append.mp hm with hm | hm
    · rcases List.mem_map.mp hm with ⟨⟨q, w⟩, hq, he⟩
      refine ⟨k, q, ?_, ?_⟩
      · exact (congrArg Prod.fst he).symm
      · rw [keysOf_cons]
        exact List.mem_cons_self _ _
    · rcases ihr p v hm with ⟨h, t, hp, hk⟩
      exact ⟨h, t, hp, by rw [keysOf_cons]; exact List.mem_cons_of_mem _ hk⟩
  · intro k v rest hv ihr p w hm
    rw [leavesList_leaf k rest hv] at hm
    rcases List.mem_cons.mp hm with hm | hm
    · cases hm
      exact ⟨k, [], rfl, by rw [keysOf_cons]; exact List.mem_cons_self _ _⟩
    · rcases ihr p w hm with ⟨h, t, hp, hk⟩
      exact ⟨h, t, hp, by rw [keysOf_cons]; exact List.mem_cons_of_mem _ hk⟩

theorem leaves_dotfree :
    ∀ data : List (String × JSON), dotFreeT data = true →
      ∀ p v, (p, v) ∈ leavesList data → ∀ s ∈ p, hasDot s = false := by
  apply treeListInduct
    (fun data => dotFreeT data = true →
      ∀ p v, (p, v) ∈ leavesList data → ∀ s ∈ p, hasDot s = false)
  · intro _ p v hm
    simp [leavesList] at hm
  · intro k sub rest ihs ihr hd p v hm
    rcases dotFreeT_obj.mp hd with ⟨hk, hsub, hrest⟩
    rw [leavesList_obj] at hm
    rcases List.mem_append.mp hm with hm | hm
    · rcases List.mem_map.mp hm with ⟨⟨q, w⟩, hq, he⟩
      intro s hs
      have he1 : k :: q = p := congrArg Prod.fst he
      rw [← he1] at hs
      rcases List.mem_cons.mp hs with hs | hs
      · rw [hs]
        exact hk
      · exact ihs hsub q w (by have := congrArg Prod.snd he; simpa [this] using hq) s hs
    · exact ihr hrest p v hm
  · intro k v rest hv ihr hd p w hm
    rcases dotFreeT_leaf hv |>.mp hd with ⟨hk, hrest⟩
    rw [leavesList_leaf k rest hv] at hm
    rcases List.mem_cons.mp hm with hm | hm
    · cases hm
      intro s hs
      rcases List.mem_singleton.mp hs with rfl
      exact hk
    · exact ihr hrest p w hm

theorem data_inj {s t : String} (h : s.data = t.data) : s = t :=
  congrArg String.mk h

theorem strNil_append (s : String) : "" ++ s = s :=
  data_inj (by simp [String.data_append])

theorem strAppend_assoc (a b c : String) : a ++ b ++ c = a ++ (b ++ c) :=
  data_inj (by simp [String.data_append])

theorem strAppend_left_cancel {a b c : String} (h : a ++ b = a ++ c) :
    b = c := by
  apply data_inj
  have hd := congrArg String.data h
  rw [String.data_append, String.data_append] at hd
  exact List.append_cancel_left hd

theorem hasDot_false_iff {s : String} :
    hasDot s = false ↔ ∀ c ∈ s.data, ¬(c = '.') := by
  simp [hasDot]

theorem joinDots_cons (k : String) {l : List String} (h : l ≠ []) :
    joinDots (k :: l) = k ++ "." ++ joinDots l := by
  cases l with
  | nil => exact absurd rfl h
  | cons a t => rfl

theorem splitDotsC_ne_nil : ∀ l : List Char, splitDotsC l ≠ []
  | [] => by simp [splitDotsC]
  | c :: rest => by
      by_cases h : c = '.'
      · simp [splitDotsC, h]
      · cases hr : splitDotsC rest with
        | nil => simp [splitDotsC, h, hr]
        | cons p ps => simp [splitDotsC, h, hr]

theorem splitDotsC_dot (l : List Char) :
    splitDotsC ('.' :: l) = [] :: splitDotsC l := by
  simp [splitDotsC]

theorem splitDotsC_prepend :
    ∀ a l : List Char, ∀ p ps, (∀ c ∈ a, ¬(c = '.')) →
      splitDotsC l = p :: ps → splitDotsC (a ++ l) = (a ++ p) :: ps
  | [], l, p, ps, _, hl => by simpa using hl
  | c :: a', l, p, ps, hfree, hl => by
      have hc : ¬(c = '.') := hfree c (List.mem_cons_self _ _)
      have ih := splitDotsC_prepend a' l p ps
        (fun x hx => hfree x (List.mem_cons_of_mem _ hx)) hl
      have ih2 : splitDotsC (List.append a' l) = (a' ++ p) :: ps := ih
      show splitDotsC (c :: (a' ++ l)) = (c :: (a' ++ p)) :: ps
      simp only [splitDotsC, if_neg hc, ih, ih2]

theorem splitDotsC_dotfree (a : List Char) (h : ∀ c ∈ a, ¬(c = '.')) :
    splitDotsC a = [a] := by
  have := splitDotsC_prepend a [] [] [] h (by simp [splitDotsC])
  simpa using this

theorem splitDots_joinDots :
    ∀ l : List String, l ≠ [] → (∀ s ∈ l, hasDot s = false) →
      splitDots (joinDots l) = l
  | [], h, _ => absurd rfl h
  | [s], _, hfree => by
      have hs : ∀ c ∈ s.data, ¬(c = '.') :=
        hasDot_false_iff.mp (hfree s (List.mem_cons_self _ _))
      show (splitDotsC (joinDots [s]).data).map (fun l => (⟨l⟩ : String)) = [s]
      have : joinDots [s] = s := rfl
      rw [this, splitDotsC_dotfree s.data hs]
      rfl
  | s :: a :: t, _, hfree => by
      have hs : ∀ c ∈ s.data, ¬(c = '.') :=
        hasDot_false_iff.mp (hfree s (List.mem_cons_self _ _))
      have ih := splitDots_joinDots (a :: t) (by simp)
        (fun x hx => hfree x (List.mem_cons_of_mem _ hx))
      have hj : joinDots (s :: a :: t) = s ++ "." ++ joinDots (a :: t) := rfl
      have hdata : (joinDots (s :: a :: t)).data
          = s.data ++ ('.' :: (joinDots (a :: t)).data) := by
        rw [hj, String.data_append, String.data_append]
        simp
      rcases hsp : splitDotsC (joinDots (a :: t)).data with _ | ⟨p, ps⟩
      · exact absurd hsp (splitDotsC_ne_nil _)
      · show (splitDotsC (joinDots (s :: a :: t)).data).map
            (fun l => (⟨l⟩ : String)) = s :: a :: t
        rw [hdata,
          splitDotsC_prepend s.data ('.' :: (joinDots (a :: t)).data)
            [] (p :: ps) hs (by rw [splitDotsC_dot, hsp]),
          List.append_nil, List.map_cons]
        have hmk : (⟨s.data⟩ : String) = s := rfl
        rw [hmk]
        have : (splitDotsC (joinDots (a :: t)).data).map
            (fun l => (⟨l⟩ : String)) = a :: t := ih
        rw [hsp, List.map_cons] at this
        rw [List.map_cons, this]

theorem joinDots_inj {l₁ l₂ : List String} (h1 : l₁ ≠ []) (h2 : l₂ ≠ [])
    (hf1 : ∀ s ∈ l₁, hasDot s = false) (hf2 : ∀ s ∈ l₂, hasDot s = false)
    (h : joinDots l₁ = joinDots l₂) : l₁ = l₂ := by
  rw [← splitDots_joinDots l₁ h1 hf1, ← splitDots_joinDots l₂ h2 hf2, h]

theorem leaves_paths_nodup :
    ∀ data : List (String × JSON), nodupKeysT data = true →
      ((leavesList data).map Prod.fst).Nodup := by
  apply treeListInduct
    (fun data => nodupKeysT data = true → ((leavesList data).map Prod.fst).Nodup)
  · intro _
    simp [leavesList]
  · intro k sub rest ihs ihr hd
    rcases nodupKeysT_obj.mp hd with ⟨hk, hsub, hrest⟩
    rw [leavesList_obj, List.map_append, List.map_map]
    have hleft : ((leavesList sub).map
        (Prod.fst ∘ fun pv => (k :: pv.1, pv.2))).Nodup := by
      have hc : (Prod.fst ∘ fun pv : List String × JSON => (k :: pv.1, pv.2))
          = (fun l => k :: l) ∘ Prod.fst := rfl
      rw [hc, ← List.map_map]
      refine (ihs hsub).map ?_
      intro a b hab
      injection hab
    rw [List.nodup_append]
    refine ⟨hleft, ihr hrest, ?_⟩
    intro q hq hq2
    rcases List.mem_map.mp hq2 with ⟨⟨q2, w2⟩, hq2', he2⟩
    rcases leaves_head rest q2 w2 hq2' with ⟨h0, t0, hp0, hk0⟩
    rcases List.mem_map.mp hq with ⟨⟨q', w⟩, hq', he⟩
    have hq'' : k :: q' = q := he
    have hqq : q2 = q := he2
    rw [← hqq, hp0] at hq''
    injection hq'' with hh1 hh2
    rw [← hh1] at hk0
    exact hk hk0
  · intro k v rest hv ihr hd
    rcases (nodupKeysT_leaf hv).mp hd with ⟨hk, hrest⟩
    rw [leavesList_leaf k rest hv, List.map_cons, List.nodup_cons]
    refine ⟨?_, ihr hrest⟩
    intro hmem
    rcases List.mem_map.mp hmem with ⟨⟨q2, w2⟩, hq2', he2⟩
    rcases leaves_head rest q2 w2 hq2' with ⟨h0, t0, hp0, hk0⟩
    have hqq : q2 = ([k] : List String) := he2
    rw [hqq] at hp0
    injection hp0 with hh1 hh2
    rw [← hh1] at hk0
    exact hk hk0

theorem rff_nil (pfx : String) (out : List (String × JSON)) :
    recursive_flatten_from pfx out [] = out := by
  simp [recursive_flatten_from]

theorem rff_obj (pfx : String) (out : List (String × JSON)) (k : String)
    (sub rest : List (String × JSON)) :
    recursive_flatten_from pfx out ((k, JSON.obj sub) :: rest)
      = recursive_flatten_from pfx
          (dupdate out (recursive_flatten_from (pfx ++ k ++ ".") [] sub)) rest := by
  simp [recursive_flatten_from]

theorem rff_leaf (pfx : String) (out : List (String × JSON)) (k : String)
    {v : JSON} (rest : List (String × JSON)) (hv : ∀ sub, v ≠ JSON.obj sub) :
    recursive_flatten_from pfx out ((k, v) :: rest)
      = recursive_flatten_from pfx (dset out (pfx ++ k) v) rest := by
  cases v with
  | obj sub => exact absurd rfl (hv sub)
  | str s => simp [recursive_flatten_from]
  | num n => simp [recursive_flatten_from]
  | bool b => simp [recursive_flatten_from]
  | null => simp [recursive_flatten_from]
  | arr l => simp [recursive_flatten_from]

theorem keysOf_entriesOf (pfx : String) (data : List (String × JSON)) :
    keysOf (entriesOf pfx data)
      = (leavesList data).map (fun pv => pfx ++ joinDots pv.1) := by
  simp only [keysOf, entriesOf, List.map_map]
  rfl

theorem mem_keys_entriesOf {pfx s : String} {data : List (String × JSON)} :
    s ∈ keysOf (entriesOf pfx data)
      ↔ ∃ p v, (p, v) ∈ leavesList data ∧ s = pfx ++ joinDots p := by
  rw [keysOf_entriesOf]
  constructor
  · intro h
    rcases List.mem_map.mp h with ⟨⟨q, w⟩, hm, he⟩
    exact ⟨q, w, hm, he.symm⟩
  · rintro ⟨p, v, hm, rfl⟩
    exact List.mem_map.mpr ⟨(p, v), hm, rfl⟩

theorem pfxJoin_inj {pfx : String} {q q' : List String} (h1 : q ≠ [])
    (h2 : q' ≠ []) (hf1 : ∀ s ∈ q, hasDot s = false)
    (hf2 : ∀ s ∈ q', hasDot s = false)
    (h : pfx ++ joinDots q = pfx ++ joinDots q') : q = q' :=
  joinDots_inj h1 h2 hf1 hf2 (strAppend_left_cancel h)

theorem entriesOf_obj (pfx k : String) (sub rest : List (String × JSON)) :
    entriesOf pfx ((k, JSON.obj sub) :: rest)
      = entriesOf (pfx ++ k ++ ".") sub ++ entriesOf pfx rest := by
  unfold entriesOf
  rw [leavesList_obj, List.map_append, List.map_map]
  congr 1
  apply List.map_congr_left
  intro ⟨q, w⟩ hq
  rcases leaves_head sub q w hq with ⟨h0, t0, hp0, _⟩
  have hne : q ≠ [] := by
    rw [hp0]
    simp
  show (pfx ++ joinDots (k :: q), w) = ((pfx ++ k ++ ".") ++ joinDots q, w)
  rw [joinDots_cons k hne, ← strAppend_assoc, ← strAppend_assoc]

theorem entriesOf_leaf (pfx k : String) {v : JSON}
    (rest : List (String × JSON)) (hv : ∀ sub, v ≠ JSON.obj sub) :
    entriesOf pfx ((k, v) :: rest) = (pfx ++ k, v) :: entriesOf pfx rest := by
  unfold entriesOf
  rw [leavesList_leaf k rest hv, List.map_cons]
  rfl

theorem entries_nodupKeys :
    ∀ data : List (String × JSON), nodupKeysT data = true →
      dotFreeT data = true → ∀ pfx, nodupKeys (entriesOf pfx data) := by
  intro data hnd hdf pfx
  unfold nodupKeys
  rw [keysOf_entriesOf]
  have hpaths := leaves_paths_nodup data hnd
  have hmapped : (leavesList data).map (fun pv => pfx ++ joinDots pv.1)
      = ((leavesList data).map Prod.fst).map (fun p => pfx ++ joinDots p) := by
    rw [List.map_map]
    rfl
  rw [hmapped]
  apply hpaths.map_on
  intro p1 hp1 p2 hp2 he
  rcases List.mem_map.mp hp1 with ⟨⟨q1, w1⟩, hm1, hq1⟩
  rcases List.mem_map.mp hp2 with ⟨⟨q2, w2⟩, hm2, hq2⟩
  cases hq1
  cases hq2
  rcases leaves_head data q1 w1 hm1 with ⟨a1, t1, hpa1, _⟩
  rcases leaves_head data q2 w2 hm2 with ⟨a2, t2, hpa2, _⟩
  exact pfxJoin_inj (by rw [hpa1]; simp) (by rw [hpa2]; simp)
    (leaves_dotfree data hdf q1 w1 hm1) (leaves_dotfree data hdf q2 w2 hm2) he

theorem rff_entries :
    ∀ data : List (String × JSON), nodupKeysT data = true →
      dotFreeT data = true → ∀ pfx out,
        (∀ s ∈ keysOf (entriesOf pfx data), getD? out s = none) →
        recursive_flatten_from pfx out data = out ++ entriesOf pfx data := by
  apply treeListInduct
    (fun data => nodupKeysT data = true → dotFreeT data = true → ∀ pfx out,
      (∀ s ∈ keysOf (entriesOf pfx data), getD? out s = none) →
      recursive_flatten_from pfx out data = out ++ entriesOf pfx data)
  · intro _ _ pfx out _
    rw [rff_nil]
    simp [entriesOf, leavesList]
  · intro k sub rest ihs ihr hnd hdf pfx out hfresh
    rcases nodupKeysT_obj.mp hnd with ⟨hk, hndS, hndR⟩
    rcases dotFreeT_obj.mp hdf with ⟨hkd, hdfS, hdfR⟩
    rw [rff_obj]
    have hinner : recursive_flatten_from (pfx ++ k ++ ".") [] sub
        = entriesOf (pfx ++ k ++ ".") sub := by
      have h0 := ihs hndS hdfS (pfx ++ k ++ ".") [] (fun s _ => rfl)
      simpa using h0
    have hup : dupdate out (entriesOf (pfx ++ k ++ ".") sub)
        = out ++ entriesOf (pfx ++ k ++ ".") sub := by
      apply dupdate_fresh _ _ (entries_nodupKeys sub hndS hdfS _)
      intro s hs
      apply hfresh
      rw [entriesOf_obj, keysOf_append]
      exact List.mem_append.mpr (Or.inl hs)
    have hdisj : ∀ s ∈ keysOf (entriesOf pfx rest),
        getD? (out ++ entriesOf (pfx ++ k ++ ".") sub) s = none := by
      intro s hs
      have h1 : getD? out s = none := by
        apply hfresh
        rw [entriesOf_obj, keysOf_append]
        exact List.mem_append.mpr (Or.inr hs)
      rw [getD?_append, h1]
      show getD? (entriesOf (pfx ++ k ++ ".") sub) s = none
      apply getD?_eq_none.mpr
      intro hmem
      rcases mem_keys_entriesOf.mp hmem with ⟨p, v, hpv, hse⟩
      rcases mem_keys_entriesOf.mp hs with ⟨q, w, hqw, hse2⟩
      rcases leaves_head sub p v hpv with ⟨a1, t1, hp1, _⟩
      rcases leaves_head rest q w hqw with ⟨a2, t2, hq2, hk2⟩
      have hpne : p ≠ [] := by
        rw [hp1]
        simp
      have hqne : q ≠ [] := by
        rw [hq2]
        simp
      have hjoin : pfx ++ joinDots (k :: p) = pfx ++ joinDots q := by
        rw [joinDots_cons k hpne, ← strAppend_assoc, ← strAppend_assoc, ← hse]
        exact hse2
      have heq : k :: p = q :=
        pfxJoin_inj (by simp) hqne
          (fun x hx => by
            rcases List.mem_cons.mp hx with hx | hx
            · rw [hx]
              exact hkd
            · exact leaves_dotfree sub hdfS p v hpv x hx)
          (leaves_dotfree rest hdfR q w hqw) hjoin
      rw [hq2] at heq
      injection heq with he1 he2
      rw [he1] at hk
      exact hk hk2
    rw [hinner, hup,
      ihr hndR hdfR pfx (out ++ entriesOf (pfx ++ k ++ ".") sub) hdisj,
      entriesOf_obj, List.append_assoc]
  · intro k v rest hv ihr hnd hdf pfx out hfresh
    rcases (nodupKeysT_leaf hv).mp hnd with ⟨hk, hndR⟩
    rcases (dotFreeT_leaf hv).mp hdf with ⟨hkd, hdfR⟩
    rw [rff_leaf pfx out k rest hv]
    have hsingle : getD? out (pfx ++ k) = none := by
      apply hfresh
      rw [entriesOf_leaf pfx k rest hv, keysOf_cons]
      exact List.mem_cons_self _ _
    rw [dset_fresh out v hsingle]
    have hdisj : ∀ s ∈ keysOf (entriesOf pfx rest),
        getD? (out ++ [(pfx ++ k, v)]) s = none := by
      intro s hs
      have h1 : getD? out s = none := by
        apply hfresh
        rw [entriesOf_leaf pfx k rest hv, keysOf_cons]
        exact List.mem_cons_of_mem _ hs
      have hne : ¬(pfx ++ k = s) := by
        intro he
        rcases mem_keys_entriesOf.mp hs with ⟨q, w, hqw, hse⟩
        rcases leaves_head rest q w hqw with ⟨a2, t2, hq2, hk2⟩
        have hqne : q ≠ [] := by
          rw [hq2]
          simp
        have hjk : joinDots [k] = k := rfl
        have heq : ([k] : List String) = q := by
          apply pfxJoin_inj (by simp) hqne
            (fun x hx => by
              rcases List.mem_singleton.mp hx with rfl
              exact hkd)
            (leaves_dotfree rest hdfR q w hqw)
          rw [hjk]
          exact he.trans hse
        rw [hq2] at heq
        injection heq with he1 he2
        rw [he1] at hk
        exact hk hk2
      rw [getD?_append, h1]
      show getD? [(pfx ++ k, v)] s = none
      rw [getD?_cons, if_neg hne]
      rfl
    rw [ihr hndR hdfR pfx (out ++ [(pfx ++ k, v)]) hdisj,
      entriesOf_leaf pfx k rest hv, List.append_assoc]
    rfl

/-- Flattening characterisation: for a tree with pairwise distinct,
`'.'`-free keys, `flatten` returns exactly one entry per leaf, keyed by
the leaf's dotted path, in depth-first order. -/
theorem flatten_eq_entries (data : List (String × JSON))
    (hnd : nodupKeysT data = true) (hdf : dotFreeT data = true) :
    flatten data = entriesOf "" data := by
  unfold flatten recursive_flatten
  have h0 := rff_entries data hnd hdf "" [] (fun s _ => rfl)
  simpa using h0

theorem insertPath_cons (t : List (String × JSON)) (k : String)
    {ks : List String} (v : JSON) (h : ks ≠ []) :
    insertPath t (k :: ks) v
      = dset t k (JSON.obj (insertPath (subAt t k) ks v)) := by
  cases ks with
  | nil => exact absurd rfl h
  | cons a b => rfl

theorem subAt_dset_obj (t : List (String × JSON)) (k : String)
    (s : List (String × JSON)) : subAt (dset t k (JSON.obj s)) k = s := by
  unfold subAt
  rw [getD?_dset_self]

theorem dset_nil (k : String) (v : α) : dset [] k v = [(k, v)] := rfl

theorem subAt_nil (k : String) : subAt [] k = [] := rfl

theorem dset_append_left {t : List (String × α)} {h : String}
    (s : List (String × α)) (v : α) (hfresh : getD? t h = none) :
    dset (t ++ s) h v = t ++ dset s h v := by
  have hmemt : h ∉ keysOf t := getD?_eq_none.mp hfresh
  by_cases hs : (getD? s h).isSome
  · have hts : (getD? (t ++ s) h).isSome := by
      rw [getD?_isSome, keysOf_append]
      exact List.mem_append.mpr (Or.inr (getD?_isSome.mp hs))
    unfold dset
    rw [if_pos hts, if_pos hs, List.map_append]
    congr 1
    have hid : ∀ p ∈ t, (if p.1 = h then ((h, v) : String × α) else p) = p := by
      intro p hp
      have hph : ¬(p.1 = h) := fun hh => hmemt (hh ▸ fst_mem_keysOf hp)
      rw [if_neg hph]
    rw [List.map_congr_left hid]
    exact List.map_id' t
  · have hts : ¬(getD? (t ++ s) h).isSome := by
      rw [getD?_isSome, keysOf_append]
      intro hmem
      rcases List.mem_append.mp hmem with hm | hm
      · exact hmemt hm
      · exact hs (getD?_isSome.mpr hm)
    unfold dset
    rw [if_neg hts, if_neg hs, List.append_assoc]

theorem insertPath_append {t : List (String × JSON)} {h : String}
    (s : List (String × JSON)) (p : List String) (v : JSON)
    (hfresh : getD? t h = none) :
    insertPath (t ++ s) (h :: p) v = t ++ insertPath s (h :: p) v := by
  cases p with
  | nil => exact dset_append_left s v hfresh
  | cons a b =>
      have hsub : subAt (t ++ s) h = subAt s h := by
        unfold subAt
        rw [getD?_append, hfresh]
      rw [insertPath_cons (t ++ s) h v (by simp), hsub,
        insertPath_cons s h v (by simp)]
      exact dset_append_left s _ hfresh

theorem rebuildFrom_cons (t : List (String × JSON)) (e : List String × JSON)
    (es : List (List String × JSON)) :
    rebuildFrom t (e :: es) = rebuildFrom (insertPath t e.1 e.2) es := rfl

theorem rebuildFrom_app2 (t : List (String × JSON))
    (xs ys : List (List String × JSON)) :
    rebuildFrom t (xs ++ ys) = rebuildFrom (rebuildFrom t xs) ys := by
  unfold rebuildFrom
  exact List.foldl_append _ _ xs ys

theorem rebuildFrom_append :
    ∀ entries : List (List String × JSON), ∀ t s : List (String × JSON),
      (∀ e ∈ entries, ∃ h0 p', e.1 = h0 :: p' ∧ h0 ∉ keysOf t) →
      rebuildFrom (t ++ s) entries = t ++ rebuildFrom s entries
  | [], t, s, _ => rfl
  | e :: es, t, s, hh => by
      rcases hh e (List.mem_cons_self _ _) with ⟨h0, p', he, hk⟩
      rw [rebuildFrom_cons, rebuildFrom_cons, he,
        insertPath_append s p' e.2 (getD?_eq_none.mpr hk)]
      exact rebuildFrom_append es t (insertPath s (h0 :: p') e.2)
        (fun x hx => hh x (List.mem_cons_of_mem _ hx))

theorem rebuildFrom_group (k : String) :
    ∀ es : List (List String × JSON), ∀ t : List (String × JSON),
      es ≠ [] → (∀ e ∈ es, e.1 ≠ []) →
      rebuildFrom t (es.map (fun e => (k :: e.1, e.2)))
        = dset t k (JSON.obj (rebuildFrom (subAt t k) es))
  | [], _, hne, _ => absurd rfl hne
  | [e], t, _, hp => by
      rw [List.map_cons, List.map_nil, rebuildFrom_cons]
      show insertPath t (k :: e.1) e.2 = _
      rw [insertPath_cons t k e.2 (hp e (List.mem_cons_self _ _))]
      rfl
  | e :: e2 :: es', t, _, hp => by
      rw [List.map_cons, rebuildFrom_cons]
      show rebuildFrom (insertPath t (k :: e.1) e.2)
          ((e2 :: es').map (fun e => (k :: e.1, e.2))) = _
      have ht1 : insertPath t (k :: e.1) e.2
          = dset t k (JSON.obj (insertPath (subAt t k) e.1 e.2)) :=
        insertPath_cons t k e.2 (hp e (List.mem_cons_self _ _))
      rw [rebuildFrom_group k (e2 :: es') (insertPath t (k :: e.1) e.2)
          (by simp) (fun x hx => hp x (List.mem_cons_of_mem _ hx)),
        ht1, subAt_dset_obj, dset_dset]
      rfl

theorem leavesList_ne_nil :
    ∀ data : List (String × JSON), noEmptyT data = true → data ≠ [] →
      leavesList data ≠ [] := by
  apply treeListInduct
    (fun data => noEmptyT data = true → data ≠ [] → leavesList data ≠ [])
  · intro _ h
    exact absurd rfl h
  · intro k sub rest ihs ihr hne _
    rcases noEmptyT_obj.mp hne with ⟨hsub, hnes, hner⟩
    rw [leavesList_obj]
    intro happ
    rcases List.append_eq_nil.mp happ with ⟨hmap, _⟩
    exact ihs hnes hsub (List.map_eq_nil_iff.mp hmap)
  · intro k v rest hv ihr hne _
    rw [leavesList_leaf k rest hv]
    simp

theorem rebuild_leaves :
    ∀ data : List (String × JSON), nodupKeysT data = true →
      noEmptyT data = true → rebuildFrom [] (leavesList data) = data := by
  apply treeListInduct
    (fun data => nodupKeysT data = true → noEmptyT data = true →
      rebuildFrom [] (leavesList data) = data)
  · intro _ _
    simp [leavesList, rebuildFrom]
  · intro k sub rest ihs ihr hnd hne
    rcases nodupKeysT_obj.mp hnd with ⟨hk, hndS, hndR⟩
    rcases noEmptyT_obj.mp hne with ⟨hsub, hneS, hneR⟩
    rw [leavesList_obj, rebuildFrom_app2,
      rebuildFrom_group k (leavesList sub) [] (leavesList_ne_nil sub hneS hsub)
        (fun e he => by
          rcases leaves_head sub e.1 e.2 (by simpa using he) with ⟨h0, t0, hp0, _⟩
          rw [hp0]
          simp),
      subAt_nil, ihs hndS hneS, dset_nil]
    have := rebuildFrom_append (leavesList rest) [(k, JSON.obj sub)] []
      (fun e he => by
        rcases leaves_head rest e.1 e.2 (by simpa using he) with ⟨h0, t0, hp0, hk0⟩
        exact ⟨h0, t0, hp0, by
          rw [keysOf_cons]
          intro hmem
          rcases List.mem_cons.mp hmem with hm | hm
          · rw [hm] at hk0
            exact hk hk0
          · simp [keysOf] at hm⟩)
    rw [List.append_nil] at this
    rw [this, ihr hndR hneR]
    rfl
  · intro k v rest hv ihr hnd hne
    rcases (nodupKeysT_leaf hv).mp hnd with ⟨hk, hndR⟩
    have hneR := (noEmptyT_leaf hv).mp hne
    rw [leavesList_leaf k rest hv, rebuildFrom_cons]
    show rebuildFrom (insertPath [] [k] v) (leavesList rest) = _
    have hins : insertPath [] [k] v = [(k, v)] := rfl
    rw [hins]
    have := rebuildFrom_append (leavesList rest) [(k, v)] []
      (fun e he => by
        rcases leaves_head rest e.1 e.2 (by simpa using he) with ⟨h0, t0, hp0, hk0⟩
        exact ⟨h0, t0, hp0, by
          rw [keysOf_cons]
          intro hmem
          rcases List.mem_cons.mp hmem with hm | hm
          · rw [hm] at hk0
            exact hk hk0
          · simp [keysOf] at hm⟩)
    rw [List.append_nil] at this
    rw [this, ihr hndR hneR]
    rfl

/-- Round trip: under distinct `'.'`-free keys and no empty sub-mappings,
re-nesting the flattened tree reproduces it. -/
theorem unflatten_flatten (data : List (String × JSON))
    (hnd : nodupKeysT data = true) (hdf : dotFreeT data = true)
    (hne : noEmptyT data = true) : unflatten (flatten data) = data := by
  rw [flatten_eq_entries data hnd hdf]
  unfold unflatten entriesOf
  rw [List.foldl_map]
  have hext : ∀ t : List (String × JSON), ∀ pv ∈ leavesList data,
      insertPath t (splitDots ("" ++ joinDots pv.1)) pv.2
        = insertPath t pv.1 pv.2 := by
    intro t pv hpv
    rcases leaves_head data pv.1 pv.2 (by simpa using hpv) with ⟨h0, t0, hp0, _⟩
    rw [strNil_append,
      splitDots_joinDots pv.1 (by rw [hp0]; simp)
        (leaves_dotfree data hdf pv.1 pv.2 (by simpa using hpv))]
  rw [List.foldl_ext _ _ [] hext]
  exact rebuild_leaves data hnd hne

theorem rff_nodupKeys :
    ∀ data : List (String × JSON), ∀ pfx out, nodupKeys out →
      nodupKeys (recursive_flatten_from pfx out data) := by
  apply treeListInduct
    (fun data => ∀ pfx out, nodupKeys out →
      nodupKeys (recursive_flatten_from pfx out data))
  · intro pfx out h
    rw [rff_nil]
    exact h
  · intro k sub rest ihs ihr pfx out h
    rw [rff_obj]
    exact ihr pfx _ (nodupKeys_dupdate out _ h)
  · intro k v rest hv ihr pfx out h
    rw [rff_leaf pfx out k rest hv]
    exact ihr pfx _ (nodupKeys_dset out _ v h)

theorem flatten_nodupKeys (data : List (String × JSON)) :
    nodupKeys (flatten data) := by
  unfold flatten recursive_flatten
  exact rff_nodupKeys data "" [] (by simp [nodupKeys, keysOf])

theorem domainOf_eq (c : String) :
    (if hasDot c = false then c else (splitDot1 c).1) = domainOf c := rfl

theorem build_resources_from_error :
    ∀ comps : List String, ∀ cache : LangCache,
      ∀ res : List (String × TransDict),
      (∃ c ∈ comps, getD? cache c = none) →
      build_resources_from cache res comps = .error .keyErr
  | [], _, _, h => by
      rcases h with ⟨c, hc, _⟩
      cases hc
  | c :: rest, cache, res, h => by
      rcases hcc : getD? cache c with _ | tree
      · simp [build_resources_from, hcc]
      · have hrest : ∃ x ∈ rest, getD? cache x = none := by
          rcases h with ⟨x, hx, hxn⟩
          rcases List.mem_cons.mp hx with hx | hx
          · rw [hx, hcc] at hxn
            cases hxn
          · exact ⟨x, hx, hxn⟩
        simp only [build_resources_from, hcc]
        exact build_resources_from_error rest cache _ hrest

theorem build_resources_from_total :
    ∀ comps : List String, ∀ cache : LangCache,
      ∀ res : List (String × TransDict),
      (∀ c ∈ comps, (getD? cache c).isSome) →
      ∃ out, build_resources_from cache res comps = .ok out
  | [], _, res, _ => ⟨res, rfl⟩
  | c :: rest, cache, res, h => by
      rcases hcc : getD? cache c with _ | tree
      · have := h c (List.mem_cons_self _ _)
        rw [hcc] at this
        cases this
      · simp only [build_resources_from, hcc]
        exact build_resources_from_total rest cache _
          (fun x hx => h x (List.mem_cons_of_mem _ hx))

theorem build_resources_from_lastWins :
    ∀ comps : List String, ∀ cache : LangCache,
      ∀ res out : List (String × TransDict),
      (∀ c t, getD? cache c = some t → nodupKeys t) →
      build_resources_from cache res comps = .ok out →
      ∀ d kk, getD? ((getD? out d).getD []) kk
        = lastWinsFrom cache d kk (getD? ((getD? res d).getD []) kk) comps
  | [], cache, res, out, _, hok, d, kk => by
      have hro : res = out := by
        simpa [build_resources_from] using hok
      rw [← hro]
      rfl
  | c :: rest, cache, res, out, hwf, hok, d, kk => by
      rcases hcc : getD? cache c with _ | tree
      · simp only [build_resources_from, hcc] at hok
        cases hok
      · simp only [build_resources_from, hcc] at hok
        set dc := if hasDot c = false then c else (splitDot1 c).1 with hdc
        set res₁ := if (getD? res dc).isSome then res else dset res dc [] with hres₁
        have ih := build_resources_from_lastWins rest cache
          (dset res₁ dc (dupdate ((getD? res₁ dc).getD []) tree)) out hwf hok d kk
        rw [ih]
        have hbase : getD? ((getD? res₁ d).getD []) kk
            = getD? ((getD? res d).getD []) kk := by
          rw [hres₁]
          by_cases hp : (getD? res dc).isSome
          · rw [if_pos hp]
          · rw [if_neg hp]
            by_cases hd : d = dc
            · subst hd
              rw [getD?_dset_self, Option.not_isSome_iff_eq_none.mp hp]
              rfl
            · rw [getD?_dset_ne res [] hd]
        have hacc : getD? ((getD? (dset res₁ dc
            (dupdate ((getD? res₁ dc).getD []) tree)) d).getD []) kk
            = (if domainOf c = d then
                match getD? cache c with
                | some t =>
                    match getD? t kk with
                    | some v => some v
                    | none => getD? ((getD? res d).getD []) kk
                | none => getD? ((getD? res d).getD []) kk
              else getD? ((getD? res d).getD []) kk) := by
          by_cases hd : domainOf c = d
          · rw [if_pos hd, hcc]
            have hd2 : d = dc := by
              rw [hdc, domainOf_eq]
              exact hd.symm
            subst hd2
            rw [getD?_dset_self]
            show getD? (dupdate ((getD? res₁ dc).getD []) tree) kk = _
            rw [getD?_dupdate _ tree kk (hwf c tree hcc)]
            cases htk : getD? tree kk with
            | some v => simp [htk]
            | none =>
                simp only [htk]
                exact hbase
          · rw [if_neg hd]
            have hd2 : d ≠ dc := by
              rw [hdc, domainOf_eq]
              exact fun hh => hd hh.symm
            rw [getD?_dset_ne res₁ _ hd2]
            exact hbase
        show lastWinsFrom cache d kk _ rest
            = lastWinsFrom cache d kk _ (c :: rest)
        simp only [lastWinsFrom]
        rw [hacc]

theorem build_resources_lastWins (cache : LangCache) (comps : List String)
    (out : List (String × TransDict))
    (hwf : ∀ c t, getD? cache c = some t → nodupKeys t)
    (hok : build_resources cache comps = .ok out) :
    ∀ d kk, getD? ((getD? out d).getD []) kk = lastWins cache comps d kk := by
  intro d kk
  have h0 := build_resources_from_lastWins comps cache [] out hwf hok d kk
  rw [h0]
  rfl

theorem ctf_error_notFound {env : Env} {c lang : String} {e : Err}
    (h : component_translation_file env c lang = .error e) : e = .notFound := by
  simp only [component_translation_file] at h
  by_cases hb : hasDot c = false
  · rw [if_pos hb] at h
    cases hgc : env.get_component c with
    | none =>
        rw [hgc] at h
        exact (Except.error.inj h).symm
    | some m =>
        rw [hgc] at h
        simp at h
  · rw [if_neg hb] at h
    cases hgp : env.get_platform (splitDot1 c).1 (splitDot1 c).2 with
    | none =>
        rw [hgp] at h
        exact (Except.error.inj h).symm
    | some m =>
        rw [hgp] at h
        simp at h

theorem resolveFiles_ok_keys :
    ∀ missing : List String, ∀ env : Env, ∀ lang : String,
      ∀ mf : List (String × FPath),
      resolveFiles env missing lang = .ok mf → keysOf mf = missing
  | [], env, lang, mf, h => by
      have h2 : ([] : List (String × FPath)) = mf := by
        simpa [resolveFiles] using h
      rw [← h2]
      rfl
  | c :: rest, env, lang, mf, h => by
      simp only [resolveFiles] at h
      cases hc : component_translation_file env c lang with
      | error e =>
          rw [hc] at h
          simp at h
      | ok p =>
          rw [hc] at h
          cases hr : resolveFiles env rest lang with
          | error e =>
              rw [hr] at h
              simp at h
          | ok r =>
              rw [hr] at h
              have h2 : (c, p) :: r = mf := by
                simpa using h
              rw [← h2, keysOf_cons, resolveFiles_ok_keys rest env lang r hr]

theorem resolveFiles_error_kind :
    ∀ missing : List String, ∀ env : Env, ∀ lang : String, ∀ e : Err,
      resolveFiles env missing lang = .error e → e = .notFound
  | [], env, lang, e, h => by
      simp [resolveFiles] at h
  | c :: rest, env, lang, e, h => by
      simp only [resolveFiles] at h
      cases hc : component_translation_file env c lang with
      | error e2 =>
          rw [hc] at h
          have h2 : e2 = e := by
            simpa using h
          rw [← h2]
          exact ctf_error_notFound hc
      | ok p =>
          rw [hc] at h
          cases hr : resolveFiles env rest lang with
          | error e3 =>
              rw [hr] at h
              have h2 : e3 = e := by
                simpa using h
              rw [← h2]
              exact resolveFiles_error_kind rest env lang e3 hr
          | ok r =>
              rw [hr] at h
              simp at h

theorem resolveFiles_mem_error :
    ∀ missing : List String, ∀ env : Env, ∀ lang c : String,
      c ∈ missing → (∃ e, component_translation_file env c lang = .error e) →
      ∃ e, resolveFiles env missing lang = .error e
  | [], _, _, _, hc, _ => absurd hc (by simp)
  | x :: rest, env, lang, c, hc, he => by
      cases hx : component_translation_file env x lang with
      | error e2 => exact ⟨e2, by simp only [resolveFiles, hx]⟩
      | ok p =>
          rcases he with ⟨e, he⟩
          rcases List.mem_cons.mp hc with hc | hc
          · rw [← hc, he] at hx
            simp at hx
          · rcases resolveFiles_mem_error rest env lang c hc ⟨e, he⟩ with ⟨e3, he3⟩
            exact ⟨e3, by simp only [resolveFiles, hx, he3]⟩

theorem load_ok_keys :
    ∀ files : List (String × FPath), ∀ lj : FPath → Except LoadErr JSON,
      ∀ loaded : List (String × TransDict),
      load_translations_files lj files = .ok loaded →
      keysOf loaded = keysOf files
  | [], lj, loaded, h => by
      have h2 : ([] : List (String × TransDict)) = loaded := by
        simpa [load_translations_files] using h
      rw [← h2]
      rfl
  | (c, f) :: rest, lj, loaded, h => by
      simp only [load_translations_files] at h
      cases hf : lj f with
      | error e =>
          rw [hf] at h
          simp at h
      | ok j =>
          rw [hf] at h
          cases j with
          | obj fields =>
              cases hr : load_translations_files lj rest with
              | error e =>
                  rw [hr] at h
                  simp at h
              | ok l =>
                  rw [hr] at h
                  have h2 : (c, fields) :: l = loaded := by
                    simpa using h
                  rw [← h2, keysOf_cons, keysOf_cons,
                    load_ok_keys rest lj l hr]
          | str s => simp at h
          | num n => simp at h
          | bool b => simp at h
          | null => simp at h
          | arr l => simp at h

theorem load_mem_error :
    ∀ files : List (String × FPath), ∀ lj : FPath → Except LoadErr JSON,
      ∀ c : String, ∀ f : FPath,
      (c, f) ∈ files → fileLoadFails lj f →
      ∃ e, load_translations_files lj files = .error e
  | [], _, _, _, hm, _ => absurd hm (by simp)
  | (x, g) :: rest, lj, c, f, hm, hfail => by
      cases hg : lj g with
      | error e => exact ⟨e.toErr, by simp only [load_translations_files, hg]⟩
      | ok j =>
          cases j with
          | obj fields =>
              rcases List.mem_cons.mp hm with hm | hm
              · have hfg : f = g := congrArg Prod.snd hm
                rw [hfg] at hfail
                rcases hfail with ⟨e, he⟩ | ⟨j2, hj2, hne⟩
                · rw [he] at hg
                  simp at hg
                · rw [hj2] at hg
                  have : j2 = JSON.obj fields := Except.ok.inj hg
                  exact absurd this (hne fields)
              · rcases load_mem_error rest lj c f hm hfail with ⟨e3, he3⟩
                exact ⟨e3, by simp only [load_translations_files, hg, he3]⟩
          | str s => exact ⟨.parseErr, by simp [load_translations_files, hg]⟩
          | num n => exact ⟨.parseErr, by simp [load_translations_files, hg]⟩
          | bool b => exact ⟨.parseErr, by simp [load_translations_files, hg]⟩
          | null => exact ⟨.parseErr, by simp [load_translations_files, hg]⟩
          | arr l => exact ⟨.parseErr, by simp [load_translations_files, hg]⟩

theorem load_parse_error :
    ∀ files : List (String × FPath), ∀ lj : FPath → Except LoadErr JSON,
      (∀ p ∈ files, ∃ j, lj p.2 = .ok j) →
      (∃ p ∈ files, ∃ j, lj p.2 = .ok j ∧ ∀ fields, j ≠ JSON.obj fields) →
      load_translations_files lj files = .error .parseErr
  | [], _, _, hbad => by
      rcases hbad with ⟨p, hp, _⟩
      cases hp
  | (x, g) :: rest, lj, hall, hbad => by
      rcases hall (x, g) (List.mem_cons_self _ _) with ⟨j, hj⟩
      cases j with
      | obj fields =>
          have hrest : ∃ p ∈ rest, ∃ j, lj p.2 = .ok j ∧ ∀ fs, j ≠ JSON.obj fs := by
            rcases hbad with ⟨p, hp, j2, hj2, hne⟩
            rcases List.mem_cons.mp hp with hp | hp
            · rw [hp] at hj2
              rw [hj2] at hj
              have : j2 = JSON.obj fields := Except.ok.inj hj
              exact absurd this (hne fields)
            · exact ⟨p, hp, j2, hj2, hne⟩
          have ih := load_parse_error rest lj
            (fun p hp => hall p (List.mem_cons_of_mem _ hp)) hrest
          simp only [load_translations_files, hj, ih]
      | str s => simp [load_translations_files, hj]
      | num n => simp [load_translations_files, hj]
      | bool b => simp [load_translations_files, hj]
      | null => simp [load_translations_files, hj]
      | arr l => simp [load_translations_files, hj]

theorem ensureLang_isSome (st : Caches) (lang : String) :
    (getD? (ensureLang st lang) lang).isSome := by
  unfold ensureLang
  by_cases h : (getD? st lang).isSome
  · rw [if_pos h]
    exact h
  · rw [if_neg h, getD?_dset_self]
    rfl

theorem cacheLookup_ensureLang (st : Caches) (lang L c : String) :
    cacheLookup (ensureLang st lang) L c = cacheLookup st L c := by
  unfold ensureLang cacheLookup
  by_cases h : (getD? st lang).isSome
  · rw [if_pos h]
  · rw [if_neg h]
    by_cases hL : L = lang
    · subst hL
      rw [getD?_dset_self, Option.not_isSome_iff_eq_none.mp h]
      rfl
    · rw [getD?_dset_ne st [] hL]

theorem load_error_kind :
    ∀ files : List (String × FPath), ∀ lj : FPath → Except LoadErr JSON,
      ∀ e : Err, load_translations_files lj files = .error e →
      e = .ioErr ∨ e = .parseErr
  | [], _, e, h => by
      simp [load_translations_files] at h
  | (c, f) :: rest, lj, e, h => by
      simp only [load_translations_files] at h
      cases hf : lj f with
      | error e2 =>
          rw [hf] at h
          have h2 : e2.toErr = e := by
            simpa using h
          rw [← h2]
          cases e2 with
          | ioErr => exact Or.inl rfl
          | parseErr => exact Or.inr rfl
      | ok j =>
          rw [hf] at h
          cases j with
          | obj fields =>
              cases hr : load_translations_files lj rest with
              | error e3 =>
                  rw [hr] at h
                  have h2 : e3 = e := by
                    simpa using h
                  rw [← h2]
                  exact load_error_kind rest lj e3 hr
              | ok l =>
                  rw [hr] at h
                  simp at h
          | str s =>
              have h2 : Err.parseErr = e := by
                simpa using h
              exact Or.inr h2.symm
          | num n =>
              have h2 : Err.parseErr = e := by
                simpa using h
              exact Or.inr h2.symm
          | bool b =>
              have h2 : Err.parseErr = e := by
                simpa using h
              exact Or.inr h2.symm
          | null =>
              have h2 : Err.parseErr = e := by
                simpa using h
              exact Or.inr h2.symm
          | arr l =>
              have h2 : Err.parseErr = e := by
                simpa using h
              exact Or.inr h2.symm

theorem covered_after_update {env : Env} {lang : String}
    {cache₀ : LangCache} {mf : List (String × FPath)}
    {loaded : List (String × TransDict)}
    (hr : resolveFiles env (missing_components cache₀ env.components) lang
      = .ok mf)
    (hl : load_translations_files env.load_json mf = .ok loaded) :
    ∀ c ∈ env.components, (getD? (dupdate cache₀ loaded) c).isSome := by
  intro c hc
  rw [isSome_getD?_dupdate]
  by_cases hs : (getD? cache₀ c).isSome
  · exact Or.inl hs
  · right
    rw [getD?_isSome, load_ok_keys mf env.load_json loaded hl,
      resolveFiles_ok_keys _ env lang mf hr]
    exact List.mem_filter.mpr
      ⟨hc, by simp [Option.not_isSome_iff_eq_none.mp hs]⟩

theorem covered_skip {env : Env} {lang : String} {cache₀ : LangCache}
    (hr : resolveFiles env (missing_components cache₀ env.components) lang
      = .ok []) :
    ∀ c ∈ env.components, (getD? cache₀ c).isSome := by
  intro c hc
  by_contra hs
  have hmem : c ∈ missing_components cache₀ env.components :=
    List.mem_filter.mpr ⟨hc, by simp [Option.not_isSome_iff_eq_none.mp hs]⟩
  have hkeys := resolveFiles_ok_keys _ env lang [] hr
  rw [← hkeys] at hmem
  cases hmem

theorem gcr_resolve_error {env : Env} {st : Caches} {lang : String} {e : Err}
    (hr : resolveFiles env (missing_components
      ((getD? (ensureLang st lang) lang).getD []) env.components) lang
      = .error e) :
    async_get_component_resources env st lang = (ensureLang st lang, .error e) := by
  simp only [async_get_component_resources]
  rw [hr]

theorem gcr_load_error {env : Env} {st : Caches} {lang : String} {e : Err}
    {mf : List (String × FPath)}
    (hr : resolveFiles env (missing_components
      ((getD? (ensureLang st lang) lang).getD []) env.components) lang = .ok mf)
    (hne : mf.isEmpty = false)
    (hl : load_translations_files env.load_json mf = .error e) :
    async_get_component_resources env st lang = (ensureLang st lang, .error e) := by
  simp only [async_get_component_resources]
  rw [hr]
  simp only [hne, Bool.false_eq_true, if_false, hl]

theorem gcr_error_shape {env : Env} {st : Caches} {lang : String} {e : Err}
    (h : (async_get_component_resources env st lang).2 = .error e) :
    (async_get_component_resources env st lang).1 = ensureLang st lang ∧
    (e = .notFound ∨ e = .ioErr ∨ e = .parseErr) := by
  rcases hr : resolveFiles env (missing_components
      ((getD? (ensureLang st lang) lang).getD []) env.components) lang
    with e2 | mf
  · have hg := gcr_resolve_error hr
    rw [hg] at h
    have he : e2 = e := by
      simpa using h
    rw [hg]
    exact ⟨rfl, Or.inl (he ▸ resolveFiles_error_kind _ env lang e2 hr)⟩
  · cases hemp : mf.isEmpty with
    | true =>
        have hmfnil : mf = [] := List.isEmpty_iff.mp hemp
        have hcov := covered_skip (hmfnil ▸ hr)
        rcases build_resources_from_total env.components
            ((getD? (ensureLang st lang) lang).getD []) [] hcov with ⟨out, hout⟩
        have hg : async_get_component_resources env st lang
            = (ensureLang st lang,
                .ok (flatten [("component", objOfResources out)])) := by
          simp [async_get_component_resources, hr, hemp, build_resources, hout]
        rw [hg] at h
        simp at h
    | false =>
        rcases hl : load_translations_files env.load_json mf with e3 | loaded
        · have hg := gcr_load_error hr hemp hl
          rw [hg] at h
          have he : e3 = e := by
            simpa using h
          rw [hg]
          refine ⟨rfl, ?_⟩
          rcases load_error_kind mf env.load_json e3 hl with h1 | h1
          · exact Or.inr (Or.inl (he ▸ h1))
          · exact Or.inr (Or.inr (he ▸ h1))
        · have hcov := covered_after_update hr hl
          rcases build_resources_from_total env.components
              (dupdate ((getD? (ensureLang st lang) lang).getD []) loaded) []
              hcov with ⟨out, hout⟩
          have hg : async_get_component_resources env st lang
              = (dset (ensureLang st lang) lang
                  (dupdate ((getD? (ensureLang st lang) lang).getD []) loaded),
                 .ok (flatten [("component", objOfResources out)])) := by
            simp [async_get_component_resources, hr, hemp, hl, build_resources,
              hout]
          rw [hg] at h
          simp at h

theorem gcr_ok {env : Env} {st : Caches} {lang : String} {st' : Caches}
    {r : List (String × JSON)}
    (h : async_get_component_resources env st lang = (st', .ok r)) :
    (getD? st' lang).isSome ∧
    (∀ c ∈ env.components, (getD? ((getD? st' lang).getD []) c).isSome) ∧
    ∃ out, build_resources ((getD? st' lang).getD []) env.components = .ok out ∧
      r = flatten [("component", objOfResources out)] := by
  rcases hr : resolveFiles env (missing_components
      ((getD? (ensureLang st lang) lang).getD []) env.components) lang
    with e2 | mf
  · rw [gcr_resolve_error hr] at h
    simp at h
  · cases hemp : mf.isEmpty with
    | true =>
        have hmfnil : mf = [] := List.isEmpty_iff.mp hemp
        have hcov := covered_skip (hmfnil ▸ hr)
        rcases build_resources_from_total env.components
            ((getD? (ensureLang st lang) lang).getD []) [] hcov with ⟨out, hout⟩
        have hg : async_get_component_resources env st lang
            = (ensureLang st lang,
                .ok (flatten [("component", objOfResources out)])) := by
          simp [async_get_component_resources, hr, hemp, build_resources, hout]
        rw [hg] at h
        have hst : ensureLang st lang = st' := congrArg Prod.fst h
        have hrr : (Except.ok (flatten [("component", objOfResources out)])
            : Except Err (List (String × JSON))) = Except.ok r := congrArg Prod.snd h
        have hr2 : flatten [("component", objOfResources out)] = r :=
          Except.ok.inj hrr
        rw [← hst]
        exact ⟨ensureLang_isSome st lang, hcov,
          ⟨out, hout, hr2.symm⟩⟩
    | false =>
        rcases hl : load_translations_files env.load_json mf with e3 | loaded
        · rw [gcr_load_error hr hemp hl] at h
          simp at h
        · have hcov := covered_after_update hr hl
          rcases build_resources_from_total env.components
              (dupdate ((getD? (ensureLang st lang) lang).getD []) loaded) []
              hcov with ⟨out, hout⟩
          have hg : async_get_component_resources env st lang
              = (dset (ensureLang st lang) lang
                  (dupdate ((getD? (ensureLang st lang) lang).getD []) loaded),
                 .ok (flatten [("component", objOfResources out)])) := by
            simp [async_get_component_resources, hr, hemp, hl, build_resources,
              hout]
          rw [hg] at h
          have hst : dset (ensureLang st lang) lang
              (dupdate ((getD? (ensureLang st lang) lang).getD []) loaded)
              = st' := congrArg Prod.fst h
          have hrr : (Except.ok (flatten [("component", objOfResources out)])
              : Except Err (List (String × JSON))) = Except.ok r := congrArg Prod.snd h
          have hr2 : flatten [("component", objOfResources out)] = r :=
            Except.ok.inj hrr
          rw [← hst, getD?_dset_self]
          exact ⟨rfl, hcov, ⟨out, hout, hr2.symm⟩⟩

theorem gcr_stable {env : Env} {st : Caches} {lang : String}
    {out : List (String × TransDict)}
    (hs : (getD? st lang).isSome)
    (hm : missing_components ((getD? st lang).getD []) env.components = [])
    (hout : build_resources ((getD? st lang).getD []) env.components = .ok out) :
    async_get_component_resources env st lang
      = (st, .ok (flatten [("component", objOfResources out)])) := by
  have hel : ensureLang st lang = st := by
    unfold ensureLang
    rw [if_pos hs]
  have hres : resolveFiles env (missing_components
      ((getD? (ensureLang st lang) lang).getD []) env.components) lang
      = .ok [] := by
    rw [hel, hm]
    rfl
  simp [async_get_component_resources, hel, hm, hout, resolveFiles]

/-- C1: for every language `L` other than `"en"`, `async_get_translations`
returns the shallow key union of the full resolution for `"en"` and the
full resolution for `L`, with `L`'s values taking precedence wherever a key
is present in both, and keys present only in the `"en"` result appearing
with their `"en"` values; when `L` equals `"en"`, the extra
default-language computation is skipped and the single-language result is
returned directly. -/
theorem c1_fallback_union (env : Env) (st : Caches) (L : String) :
    (L = "en" →
      async_get_translations env st L
        = async_get_component_resources env st L) ∧
    (L ≠ "en" → ∀ st₁ r st₂ b,
      async_get_component_resources env st L = (st₁, .ok r) →
      async_get_component_resources env st₁ "en" = (st₂, .ok b) →
      async_get_translations env st L = (st₂, .ok (dupdate b r)) ∧
      ∀ k, getD? (dupdate b r) k
        = match getD? r k with
          | some v => some v
          | none => getD? b k) := by
  constructor
  · intro he
    subst he
    rcases hc : async_get_component_resources env st "en" with ⟨st₁, res⟩
    cases res with
    | error e => simp [async_get_translations, hc]
    | ok r => simp [async_get_translations, hc]
  · intro hne st₁ r st₂ b h1 h2
    constructor
    · simp [async_get_translations, h1, hne, h2]
    · intro k
      obtain ⟨_, _, out, _, hr⟩ := gcr_ok h1
      have hnodup : nodupKeys r := by
        rw [hr]
        exact flatten_nodupKeys _
      have hd := getD?_dupdate b r k hnodup
      cases hrk : getD? r k <;> rw [hrk] at hd <;> simpa using hd

theorem c1_witness :
    async_get_component_resources envW [] "nl" = (stNlW, .ok rNlW) ∧
    async_get_component_resources envW stNlW "en" = (stNlEnW, .ok bEnW) ∧
    async_get_translations envW [] "nl" = (stNlEnW, .ok (dupdate bEnW rNlW)) ∧
    getD? (dupdate bEnW rNlW) "component.light.state.on"
      = match getD? rNlW "component.light.state.on" with
        | some v => some v
        | none => getD? bEnW "component.light.state.on" := by
  have h1 : async_get_component_resources envW [] "nl" = (stNlW, .ok rNlW) := by
    simp [async_get_component_resources, ensureLang, missing_components,
      resolveFiles, component_translation_file, hasDot, envW, splitDot1,
      splitDot1C, parentName, load_translations_files, build_resources,
      build_resources_from, getD?, dset, dupdate, flatten, recursive_flatten,
      recursive_flatten_from, objOfResources, stNlW, rNlW, lightModule,
      hueModule]
  have h2 : async_get_component_resources envW stNlW "en"
      = (stNlEnW, .ok bEnW) := by
    simp [async_get_component_resources, ensureLang, missing_components,
      resolveFiles, component_translation_file, hasDot, envW, splitDot1,
      splitDot1C, parentName, load_translations_files, build_resources,
      build_resources_from, getD?, dset, dupdate, flatten, recursive_flatten,
      recursive_flatten_from, objOfResources, stNlW, stNlEnW, cacheEnW, bEnW,
      lightModule, hueModule]
  rcases (c1_fallback_union envW [] "nl").2 (by decide) stNlW rNlW stNlEnW bEnW
    h1 h2 with ⟨hmain, hval⟩
  exact ⟨h1, h2, hmain, hval "component.light.state.on"⟩

/-- C2, counterexample: `build_resources` merges the cached trees of a
domain with a shallow top-level `dict.update`, not a merge of the
identifiers' flat maps. With `light` defining flattened keys `state.on`
and `state.off` and `light.hue` defining only `state.on`, the later
identifier's whole `state` subtree replaces the earlier one, so the
flattened key `state.off` — defined by only one of the two identifiers —
is lost from the merged domain result, contradicting the claim. -/
theorem c2_counterexample :
    build_resources cacheC2W ["light", "light.hue"] = .ok outC2W ∧
    getD? (flatten [("state", JSON.obj [("on", JSON.str "On"),
        ("off", JSON.str "Off")])]) "state.off" = some (JSON.str "Off") ∧
    getD? (flatten [("state", JSON.obj [("on", JSON.str "On (Hue)")])])
      "state.off" = none := by
  refine ⟨?_, ?_, ?_⟩
  · simp [build_resources, build_resources_from, cacheC2W, outC2W, hasDot,
      splitDot1, splitDot1C, getD?, dset, dupdate]
  · simp [flatten, recursive_flatten, recursive_flatten_from, dset, dupdate,
      getD?]
  · simp [flatten, recursive_flatten, recursive_flatten_from, dset, dupdate,
      getD?]

/-- C2, amended: for identifiers sharing a domain, `build_resources`
produces the domain's result as a last-write-wins merge of the
identifiers' cached trees at **top-level keys** (a shallow `dict.update`
in required-set iteration order): for every domain `d` and top-level key
`kk`, the merged value of `kk` is the one contributed by the last
identifier of domain `d` whose tree defines `kk` (and absent when no such
identifier exists), so a later identifier's whole subtree for a shared
top-level key replaces the earlier one, while top-level keys defined by
only one identifier are preserved. -/
theorem c2_amended (cache : LangCache) (comps : List String)
    (out : List (String × TransDict))
    (hwf : ∀ c t, getD? cache c = some t → nodupKeys t)
    (hok : build_resources cache comps = .ok out) :
    ∀ d kk, getD? ((getD? out d).getD []) kk = lastWins cache comps d kk :=
  build_resources_lastWins cache comps out hwf hok

theorem c2_witness :
    build_resources cacheC2W ["light", "light.hue"] = .ok outC2W ∧
    getD? ((getD? outC2W "light").getD []) "state"
      = lastWins cacheC2W ["light", "light.hue"] "light" "state" := by
  have hwf : ∀ c t, getD? cacheC2W c = some t → nodupKeys t := by
    intro c t h
    unfold cacheC2W at h
    rw [getD?_cons, getD?_cons] at h
    by_cases h1 : "light" = c
    · rw [if_pos h1] at h
      cases h
      simp [nodupKeys, keysOf]
    · rw [if_neg h1] at h
      by_cases h2 : "light.hue" = c
      · rw [if_pos h2] at h
        cases h
        simp [nodupKeys, keysOf]
      · rw [if_neg h2] at h
        cases h
  have hok : build_resources cacheC2W ["light", "light.hue"] = .ok outC2W := by
    simp [build_resources, build_resources_from, cacheC2W, outC2W, hasDot,
      splitDot1, splitDot1C, getD?, dset, dupdate]
  exact ⟨hok, c2_amended cacheC2W ["light", "light.hue"] outC2W hwf hok
    "light" "state"⟩

/-- C3: if loading any one identifier's translation file in a batch fails,
the whole resource fetch for that language fails, and on every failed
fetch the cache is left exactly as it was before the call: no identifier
of any language gains, loses or changes a cached tree (all-or-nothing
insertion of the batch's results). -/
theorem c3_atomic_cache (env : Env) (st : Caches) (lang : String) :
    (∀ e, (async_get_component_resources env st lang).2 = .error e →
      ∀ L c, cacheLookup (async_get_component_resources env st lang).1 L c
        = cacheLookup st L c) ∧
    (∀ mf c f, resolveFiles env (missing_components
        ((getD? (ensureLang st lang) lang).getD []) env.components) lang
        = .ok mf →
      (c, f) ∈ mf → fileLoadFails env.load_json f →
      ∃ e, (async_get_component_resources env st lang).2 = .error e) := by
  constructor
  · intro e he L c
    obtain ⟨hst, _⟩ := gcr_error_shape he
    rw [hst, cacheLookup_ensureLang]
  · intro mf c f hr hm hfail
    rcases load_mem_error mf env.load_json c f hm hfail with ⟨e, hl⟩
    have hemp : mf.isEmpty = false := by
      rcases mf with _ | ⟨p, mf'⟩
      · cases hm
      · rfl
    exact ⟨e, by rw [gcr_load_error hr hemp hl]⟩

theorem c3_witness :
    (async_get_component_resources envBad [] "en").2 = .error Err.parseErr ∧
    cacheLookup (async_get_component_resources envBad [] "en").1 "en" "light"
      = cacheLookup [] "en" "light" ∧
    (∃ e, (async_get_component_resources envBad [] "en").2 = .error e) := by
  have herr : (async_get_component_resources envBad [] "en").2
      = .error Err.parseErr := by
    simp [async_get_component_resources, ensureLang, missing_components,
      resolveFiles, component_translation_file, hasDot, envBad, splitDot1,
      splitDot1C, parentName, load_translations_files, getD?, dset,
      lightModule]
  have hres : resolveFiles envBad (missing_components
      ((getD? (ensureLang [] "en") "en").getD []) envBad.components) "en"
      = .ok [("light", ["light", ".translations", "en.json"])] := by
    simp [ensureLang, missing_components, resolveFiles,
      component_translation_file, hasDot, envBad, getD?, dset, lightModule]
  refine ⟨herr, (c3_atomic_cache envBad [] "en").1 Err.parseErr herr "en" "light",
    (c3_atomic_cache envBad [] "en").2
      [("light", ["light", ".translations", "en.json"])] "light"
      ["light", ".translations", "en.json"] hres (by simp) ?_⟩
  right
  exact ⟨JSON.str "nope", rfl, fun fields h => JSON.noConfusion h⟩

/-- C4: a second `async_get_component_resources` call with the required
identifier set unchanged computes an empty missing set — so the loader is
never invoked, the guard `if missing_files` being false — and returns the
same cache state and the same flat map as the first call. -/
theorem c4_idempotent (env : Env) (st : Caches) (lang : String)
    (st₁ : Caches) (r : List (String × JSON))
    (h : async_get_component_resources env st lang = (st₁, .ok r)) :
    missing_components ((getD? st₁ lang).getD []) env.components = [] ∧
    async_get_component_resources env st₁ lang = (st₁, .ok r) := by
  obtain ⟨hs, hcov, out, hout, hr⟩ := gcr_ok h
  have hm : missing_components ((getD? st₁ lang).getD []) env.components
      = [] := by
    unfold missing_components
    apply List.filter_eq_nil_iff.mpr
    intro a ha h2
    have h3 := hcov a ha
    rw [Option.isNone_iff_eq_none] at h2
    rw [h2] at h3
    simp at h3
  refine ⟨hm, ?_⟩
  rw [hr]
  exact gcr_stable hs hm hout

theorem c4_witness :
    async_get_component_resources envW [] "en" = ([("en", cacheEnW)], .ok bEnW) ∧
    missing_components ((getD? [("en", cacheEnW)] "en").getD [])
      envW.components = [] ∧
    async_get_component_resources envW [("en", cacheEnW)] "en"
      = ([("en", cacheEnW)], .ok bEnW) := by
  have h1 : async_get_component_resources envW [] "en"
      = ([("en", cacheEnW)], .ok bEnW) := by
    simp [async_get_component_resources, ensureLang, missing_components,
      resolveFiles, component_translation_file, hasDot, envW, splitDot1,
      splitDot1C, parentName, load_translations_files, build_resources,
      build_resources_from, getD?, dset, dupdate, flatten, recursive_flatten,
      recursive_flatten_from, objOfResources, cacheEnW, bEnW, lightModule,
      hueModule]
  rcases c4_idempotent envW [] "en" [("en", cacheEnW)] bEnW h1 with ⟨hm, hsec⟩
  exact ⟨h1, hm, hsec⟩

/-- C5, counterexample: the tree `{"a": {}}` has pairwise distinct,
`'.'`-free keys, yet flattening it yields the empty flat map (an empty
mapping has no leaves), and re-nesting that flat map gives the empty tree,
not the original: the round trip of the claim fails on trees containing an
empty mapping as a value. -/
theorem c5_counterexample :
    nodupKeysT treeEmptyW = true ∧ dotFreeT treeEmptyW = true ∧
    unflatten (flatten treeEmptyW) ≠ treeEmptyW := by
  refine ⟨?_, ?_, ?_⟩
  · simp only [nodupKeysT, treeEmptyW]
    decide
  · simp only [dotFreeT, treeEmptyW]
    decide
  · have hf : flatten treeEmptyW = [] := by
      simp [flatten, recursive_flatten, recursive_flatten_from, dupdate,
        treeEmptyW]
    rw [hf]
    simp [unflatten, treeEmptyW]

/-- C5, amended: for every translation tree with pairwise distinct keys,
no key containing `'.'`, and no empty mapping as a value, `flatten`
contains exactly one entry per leaf value, keyed by that leaf's dotted
path (parent keys joined with `'.'`, in depth-first order), and re-nesting
the flat map by splitting keys on `'.'` and rebuilding the tree reproduces
the tree. -/
theorem c5_flatten_roundtrip (data : List (String × JSON))
    (hnd : nodupKeysT data = true) (hdf : dotFreeT data = true)
    (hne : noEmptyT data = true) :
    flatten data = (leavesList data).map (fun pv => (joinDots pv.1, pv.2)) ∧
    unflatten (flatten data) = data := by
  constructor
  · rw [flatten_eq_entries data hnd hdf]
    unfold entriesOf
    apply List.map_congr_left
    intro pv _
    rw [strNil_append]
  · exact unflatten_flatten data hnd hdf hne

theorem c5_witness :
    nodupKeysT treeW = true ∧ dotFreeT treeW = true ∧
    noEmptyT treeW = true ∧
    (flatten treeW
        = (leavesList treeW).map (fun pv => (joinDots pv.1, pv.2)) ∧
      unflatten (flatten treeW) = treeW) := by
  have h1 : nodupKeysT treeW = true := by
    simp only [nodupKeysT, treeW]
    decide
  have h2 : dotFreeT treeW = true := by
    simp only [dotFreeT, treeW]
    decide
  have h3 : noEmptyT treeW = true := by
    simp only [noEmptyT, treeW]
    decide
  exact ⟨h1, h2, h3, c5_flatten_roundtrip treeW h1 h2 h3⟩

/-- C6: the translation-file path computed by the code follows exactly the
path-resolution rules of specification §4.1, stated as `resolve_spec`:
the two definitions agree on every environment, identifier and language,
including the `notFound` failure cases. -/
theorem c6_path_resolution (env : Env) (identifier language : String) :
    component_translation_file env identifier language
      = resolve_spec env identifier language := by
  cases hb : hasDot identifier with
  | false =>
      simp [component_translation_file, resolve_spec, hb, parentName]
  | true =>
      simp [component_translation_file, resolve_spec, hb, parentName]

/-- C7: `load_translations_files` fails outright whenever any file's
parsed content is not a mapping at top level — no identifier-to-tree
mapping is returned for any entry of the batch, including entries whose
files were valid — and when every file is readable the reported error is
the `parseErr` of the first non-mapping file. -/
theorem c7_parse_aborts_batch (lj : FPath → Except LoadErr JSON)
    (files : List (String × FPath)) :
    ((∃ p ∈ files, ∃ j, lj p.2 = .ok j ∧ ∀ fields, j ≠ JSON.obj fields) →
      (∃ e, load_translations_files lj files = .error e) ∧
      ∀ loaded, load_translations_files lj files ≠ .ok loaded) ∧
    ((∀ p ∈ files, ∃ j, lj p.2 = .ok j) →
      (∃ p ∈ files, ∃ j, lj p.2 = .ok j ∧ ∀ fields, j ≠ JSON.obj fields) →
      load_translations_files lj files = .error .parseErr) := by
  constructor
  · rintro ⟨⟨c, f⟩, hp, j, hj, hne⟩
    rcases load_mem_error files lj c f hp (Or.inr ⟨j, hj, hne⟩) with ⟨e, he⟩
    refine ⟨⟨e, he⟩, ?_⟩
    intro loaded hok
    rw [he] at hok
    cases hok
  · intro hall hbad
    exact load_parse_error files lj hall hbad

theorem c7_witness :
    load_translations_files envBad.load_json
        [("light", ["light", ".translations", "en.json"])]
      = .error Err.parseErr ∧
    ∀ loaded, load_translations_files envBad.load_json
        [("light", ["light", ".translations", "en.json"])] ≠ .ok loaded := by
  have hbad : ∃ p ∈ [("light", ["light", ".translations", "en.json"])],
      ∃ j, envBad.load_json p.2 = .ok j ∧ ∀ fields, j ≠ JSON.obj fields := by
    refine ⟨("light", ["light", ".translations", "en.json"]), by simp,
      JSON.str "nope", rfl, fun fields h => JSON.noConfusion h⟩
  have hall : ∀ p ∈ [("light", ["light", ".translations", "en.json"])],
      ∃ j, envBad.load_json p.2 = .ok j := by
    intro p _
    exact ⟨JSON.str "nope", rfl⟩
  rcases c7_parse_aborts_batch envBad.load_json
      [("light", ["light", ".translations", "en.json"])] with ⟨h1, h2⟩
  exact ⟨h2 hall hbad, (h1 hbad).2⟩

/-- C8: path resolution fails with `notFound` whenever the registry cannot
map the identifier to a loaded unit — for components and platforms alike —
and when such an identifier is among the missing identifiers of a resource
fetch, the failure propagates to the caller of
`async_get_component_resources` as the same `notFound` error. -/
theorem c8_notFound_propagates (env : Env) :
    (∀ c lang, registryMissing env c →
      component_translation_file env c lang = .error .notFound) ∧
    (∀ st lang c, c ∈ env.components →
      getD? ((getD? (ensureLang st lang) lang).getD []) c = none →
      registryMissing env c →
      (async_get_component_resources env st lang).2 = .error .notFound) := by
  have hpart1 : ∀ c lang, registryMissing env c →
      component_translation_file env c lang = .error .notFound := by
    intro c lang hrm
    unfold registryMissing at hrm
    cases hb : hasDot c with
    | false =>
        rw [hb] at hrm
        simp at hrm
        simp [component_translation_file, hb, hrm]
    | true =>
        rw [hb] at hrm
        simp at hrm
        simp [component_translation_file, hb, hrm]
  refine ⟨hpart1, ?_⟩
  intro st lang c hc hnone hrm
  have hmem : c ∈ missing_components
      ((getD? (ensureLang st lang) lang).getD []) env.components :=
    List.mem_filter.mpr ⟨hc, by simp [hnone]⟩
  rcases resolveFiles_mem_error _ env lang c hmem
      ⟨.notFound, hpart1 c lang hrm⟩ with ⟨e, hre⟩
  have hkind := resolveFiles_error_kind _ env lang e hre
  rw [gcr_resolve_error hre, hkind]

theorem c8_witness :
    registryMissing envMissing "ghost" ∧
    component_translation_file envMissing "ghost" "en" = .error Err.notFound ∧
    (async_get_component_resources envMissing [] "en").2
      = .error Err.notFound := by
  have hrm : registryMissing envMissing "ghost" := by
    simp [registryMissing, hasDot, envMissing]
  refine ⟨hrm, (c8_notFound_propagates envMissing).1 "ghost" "en" hrm,
    (c8_notFound_propagates envMissing).2 [] "en" "ghost" (by simp [envMissing])
      (by simp [ensureLang, getD?, dset]) hrm⟩

/-- C9: `build_resources` looks up every identifier of the given set in
the cache unconditionally, so it fails with the lookup error whenever any
identifier of the set has no cache entry, and succeeds exactly when every
identifier is cached; the orchestrator establishes that precondition by
loading all missing identifiers first, so a resource fetch never surfaces
the lookup error. -/
theorem c9_build_partiality :
    (∀ cache : LangCache, ∀ comps : List String,
      ((∃ c ∈ comps, getD? cache c = none) →
        build_resources cache comps = .error .keyErr) ∧
      ((∀ c ∈ comps, (getD? cache c).isSome) →
        ∃ out, build_resources cache comps = .ok out)) ∧
    (∀ env st lang,
      (async_get_component_resources env st lang).2 ≠ .error Err.keyErr) := by
  constructor
  · intro cache comps
    exact ⟨fun h => build_resources_from_error comps cache [] h,
      fun h => build_resources_from_total comps cache [] h⟩
  · intro env st lang h
    obtain ⟨_, hkind⟩ := gcr_error_shape h
    rcases hkind with h1 | h1 | h1 <;> exact Err.noConfusion h1

theorem c9_witness :
    build_resources [] ["light"] = .error Err.keyErr ∧
    (∃ out, build_resources cacheC2W ["light", "light.hue"] = .ok out) ∧
    (async_get_component_resources envBad [] "en").2 ≠ .error Err.keyErr := by
  refine ⟨c9_build_partiality.1 [] ["light"] |>.1 ⟨"light", by simp, rfl⟩,
    c9_build_partiality.1 cacheC2W ["light", "light.hue"] |>.2 ?_,
    c9_build_partiality.2 envBad [] "en"⟩
  intro c hc
  rcases List.mem_cons.mp hc with hc | hc
  · rw [hc]
    rfl
  · rcases List.mem_cons.mp hc with hc | hc
    · rw [hc]
      rfl
    · cases hc

/-- C10, counterexample: in the tree `{"a.b": 1, "a": {"b": "s"}}` — a
genuine dict with two distinct keys — the non-string leaf value `1` has
dotted path `"a.b"`, which collides with the flattened key of the leaf
`"s"`; the later entry overwrites the earlier, so the value `1` does not
appear in the flat map at all, contradicting the claim for trees whose
dotted leaf paths collide. -/
theorem c10_counterexample :
    nodupKeysT treeShadowW = true ∧
    (["a.b"], JSON.num 1) ∈ leavesList treeShadowW ∧
    flatten treeShadowW = [("a.b", JSON.str "s")] := by
  refine ⟨?_, ?_, ?_⟩
  · simp only [nodupKeysT, treeShadowW]
    decide
  · simp [leavesList, treeShadowW]
  · simp [flatten, recursive_flatten, recursive_flatten_from, dset, dupdate,
      getD?, treeShadowW]

/-- C10, amended: for every tree with pairwise distinct, `'.'`-free keys,
`flatten` passes every leaf value through to the flat map unchanged and
without type validation: each leaf — string or not (numbers, lists, null,
booleans) — appears verbatim under its dotted path. -/
theorem c10_leaves_verbatim (data : List (String × JSON))
    (hnd : nodupKeysT data = true) (hdf : dotFreeT data = true) :
    ∀ p v, (p, v) ∈ leavesList data →
      getD? (flatten data) (joinDots p) = some v := by
  intro p v hm
  rw [flatten_eq_entries data hnd hdf]
  have hmem : ("" ++ joinDots p, v) ∈ entriesOf "" data :=
    List.mem_map_of_mem (fun pv => ("" ++ joinDots pv.1, pv.2)) hm
  rw [strNil_append] at hmem
  exact getD?_mem_nodup hmem (entries_nodupKeys data hnd hdf "")

theorem c10_witness :
    nodupKeysT treeMixedW = true ∧ dotFreeT treeMixedW = true ∧
    getD? (flatten treeMixedW) (joinDots ["deep", "items"])
      = some (JSON.arr [JSON.null]) ∧
    getD? (flatten treeMixedW) (joinDots ["n"]) = some (JSON.num 3) := by
  have h1 : nodupKeysT treeMixedW = true := by
    simp only [nodupKeysT, treeMixedW]
    decide
  have h2 : dotFreeT treeMixedW = true := by
    simp only [dotFreeT, treeMixedW]
    decide
  refine ⟨h1, h2,
    c10_leaves_verbatim treeMixedW h1 h2 ["deep", "items"]
      (JSON.arr [JSON.null]) (by simp [leavesList, treeMixedW]),
    c10_leaves_verbatim treeMixedW h1 h2 ["n"] (JSON.num 3)
      (by simp [leavesList, treeMixedW])⟩
